import Mathlib

/-!
# conflicthandler_poc: dotted-path accessor, normalizer and secret reconciler

A shallow embedding of `src/pkg/main.go`.

* A decoded JSON document (`map[string]interface{}`) is an association list of
  keys and values.  Lookup takes the first binding of a key, `delete` removes
  every binding of a key and assignment overwrites the binding in place (or
  adds one), so that every operation agrees with the Go map it stands for.  Go
  maps never hold a key twice; the predicate `Value.WF` records this and is
  assumed only where a statement depends on it.
* Errors built with `errors.New` / `errors.Errorf` are modelled by their
  message text.
* In-place mutation is modelled by explicit state passing: a function that
  mutates its argument returns the contents of the argument after the call.
-/

set_option autoImplicit false

namespace ConflictHandler

/-! ## Data model -/

/-- A decoded JSON value (`interface{}` as produced by the JSON decoder).
Numbers are never inspected by the program, only compared. -/
inductive Value where
  | null : Value
  | bool (b : Bool) : Value
  | num (n : Int) : Value
  | str (s : String) : Value
  | list (xs : List Value) : Value
  | map (kvs : List (String × Value)) : Value

/-- The Go type `map[string]interface{}` (a non-nil map). -/
abbrev Obj := List (String × Value)

/-- Map index with presence flag: `v, found := m[key]`. -/
def lookup : Obj → String → Option Value
  | [], _ => none
  | (k, v) :: rest, key => if k = key then some v else lookup rest key

/-- Map index without presence flag: `m[key]`, the nil interface when absent. -/
def index (m : Obj) (key : String) : Value :=
  match lookup m key with
  | some v => v
  | none => Value.null

/-- The builtin `delete(m, key)`. -/
def delete : Obj → String → Obj
  | [], _ => []
  | (k, v) :: rest, key => if k = key then delete rest key else (k, v) :: delete rest key

/-- Map assignment `m[key] = v`. -/
def assign : Obj → String → Value → Obj
  | [], key, v => [(key, v)]
  | (k, w) :: rest, key, v =>
    if k = key then (k, v) :: rest else (k, w) :: assign rest key v

/-- The keys of a map, as visited by `for k := range m`. -/
def keys (m : Obj) : List String := m.map Prod.fst

/-! ## Library functions of package `strings` -/

/-- The function `strings.Split(s, ".")` on the characters of `s`. -/
def splitDot : List Char → List (List Char)
  | [] => [[]]
  | c :: cs =>
    if c = '.' then [] :: splitDot cs
    else
      match splitDot cs with
      | [] => [[c]]
      | seg :: segs => (c :: seg) :: segs

/-- The function `strings.Split(path, ".")`. -/
def strings_Split (path : String) : List String :=
  (splitDot path.data).map String.mk

/-- The function `strings.Join(parts, ".")`. -/
def strings_Join : List String → String
  | [] => ""
  | [a] => a
  | a :: b :: rest => a ++ "." ++ strings_Join (b :: rest)

/-- The function `strings.HasPrefix(s, pre)`. -/
def strings_HasPrefix (s pre : String) : Bool :=
  pre.data.isPrefixOf s.data

/-! ## Error messages -/

/-- Message of `errors.New("root is nil")`. -/
def errRootNil : String := "root is nil"

/-- Message of `errors.Errorf("key %v not found", key)`. -/
def errKeyNotFound (key : String) : String := "key " ++ key ++ " not found"

/-- Message of `errors.Errorf("value at key %v is not a map[string]interface{}", key)`. -/
def errKeyNotMap (key : String) : String :=
  "value at key " ++ key ++ " is not a map[string]interface\x7b\x7d"

/-- Message of `errors.Errorf("value at path %v is not a map[string]interface{}", path)`. -/
def errPathNotMap (path : String) : String :=
  "value at path " ++ path ++ " is not a map[string]interface\x7b\x7d"

/-- Message of `errors.Errorf("value at path %v is not a []interface{}", path)`. -/
def errPathNotSlice (path : String) : String :=
  "value at path " ++ path ++ " is not a []interface\x7b\x7d"

/-- Message of `errors.Errorf("value at path %v is not a string", path)`. -/
def errPathNotString (path : String) : String :=
  "value at path " ++ path ++ " is not a string"

/-! ## The dotted-path accessor -/

/-- The body of `GetValue`, with the recursion depth bounded by `fuel`.
`root = none` is the nil map. -/
def GetValueFuel : Nat → Option Obj → String → Except String Value
  | 0, _, _ => Except.error "recursion limit"
  | fuel + 1, root, path =>
    match root with
    | none => Except.error errRootNil
    | some m =>
      let pathParts := strings_Split path
      let key := pathParts.headD ""
      match lookup m key with
      | none => Except.error (errKeyNotFound key)
      | some obj =>
        if pathParts.length = 1 then Except.ok obj
        else
          match obj with
          | Value.map subMap => GetValueFuel fuel (some subMap) (strings_Join pathParts.tail)
          | _ => Except.error (errKeyNotMap key)

/-- The function `GetValue`: every recursive call is on a strictly shorter
path, so `path.length + 1` levels always suffice (see `GetValueFuel_eq_walk`). -/
def GetValue (root : Option Obj) (path : String) : Except String Value :=
  GetValueFuel (path.length + 1) root path

/-- The function `GetMap`. -/
def GetMap (root : Option Obj) (path : String) : Except String Obj :=
  match GetValue root path with
  | Except.error err => Except.error err
  | Except.ok obj =>
    match obj with
    | Value.map ret => Except.ok ret
    | _ => Except.error (errPathNotMap path)

/-- The function `GetSlice`. -/
def GetSlice (root : Option Obj) (path : String) : Except String (List Value) :=
  match GetValue root path with
  | Except.error err => Except.error err
  | Except.ok obj =>
    match obj with
    | Value.list ret => Except.ok ret
    | _ => Except.error (errPathNotSlice path)

/-- The function `GetString`. -/
def GetString (root : Option Obj) (path : String) : Except String String :=
  match GetValue root path with
  | Except.error err => Except.error err
  | Except.ok obj =>
    match obj with
    | Value.str str => Except.ok str
    | _ => Except.error (errPathNotString path)

/-! ## Iterated lookup along the segments of a path -/

/-- The function `strings.Join(segs, ".")` on character lists. -/
def joinDot : List (List Char) → List Char
  | [] => []
  | [a] => a
  | a :: b :: rest => a ++ '.' :: joinDot (b :: rest)

/-- The lookups `GetValue` performs, one per path segment. -/
def walk : Obj → List String → Except String Value
  | _, [] => Except.error (errKeyNotFound "")
  | m, key :: rest =>
    match lookup m key with
    | none => Except.error (errKeyNotFound key)
    | some obj =>
      match rest with
      | [] => Except.ok obj
      | _ :: _ =>
        match obj with
        | Value.map subMap => walk subMap rest
        | _ => Except.error (errKeyNotMap key)

/-- Walking the segments `pre` from `m` passes through nested maps only and
arrives at the map `m'`: `m[pre₁][pre₂]…` is the map `m'`. -/
def Reaches : Obj → List String → Obj → Prop
  | m, [], m' => m' = m
  | m, s :: rest, m' => ∃ sub, lookup m s = some (Value.map sub) ∧ Reaches sub rest m'

/-- The value is a map. -/
def Value.isMap : Value → Bool
  | Value.map _ => true
  | _ => false

/-! ## The normalizer -/

/-- The keys the `switch` of `resetMetadataAndStatus` leaves alone. -/
def keptKey (k : String) : Bool :=
  k = "name" || k = "namespace" || k = "labels" || k = "annotations"

/-- The body of the loop over `metadata`, for the key `k`. -/
def resetStep (metadata : Obj) (k : String) : Obj :=
  if keptKey k then metadata else delete metadata k

/-- The loop `for k := range metadata`, visiting the keys in the order `ks`.
Go visits the keys of a map in an unspecified order; deleting the visited key
is allowed during the iteration and every key present at the start is visited
once. -/
def resetLoop (ks : List String) (metadata : Obj) : Obj :=
  ks.foldl resetStep metadata

/-- What a call of `resetMetadataAndStatus(obj)` leaves behind: the contents of
`obj` when the call returns, and the returned pair, `(nil, err)` as
`Except.error err` and `(obj, nil)` as `Except.ok` of the contents of `obj`. -/
structure ResetResult where
  obj : Obj
  ret : Except String Obj

/-- The function `resetMetadataAndStatus`.  The map `metadata` is the one stored
under `obj["metadata"]`, so the deletions of the loop show there. -/
def resetMetadataAndStatus (obj : Obj) : ResetResult :=
  match GetMap (some obj) "metadata" with
  | Except.error err => { obj := obj, ret := Except.error err }
  | Except.ok metadata =>
    let metadata := resetLoop (keys metadata) metadata
    let obj := assign obj "metadata" (Value.map metadata)
    let obj := delete obj "status"
    { obj := obj, ret := Except.ok obj }

/-! ## Semantic equality -/

mutual
/-- Modelled from the spec: the library function `equality.Semantic.DeepEqual`
on decoded JSON values (deep structural equality: same keys, same values
recursively, list order significant, map key order insignificant).  Two maps
are equal when they have the same number of keys and every key of the first
is bound in the second to an equal value. -/
def Value.deepEqual : Value → Value → Bool
  | Value.null, Value.null => true
  | Value.bool a, Value.bool b => a == b
  | Value.num a, Value.num b => a == b
  | Value.str a, Value.str b => a == b
  | Value.list xs, Value.list ys => deepEqualList xs ys
  | Value.map a, Value.map b => a.length == b.length && deepEqualMap a b
  | _, _ => false
/-- Deep equality of two lists, element by element. -/
def deepEqualList : List Value → List Value → Bool
  | [], [] => true
  | x :: xs, y :: ys => x.deepEqual y && deepEqualList xs ys
  | _, _ => false
/-- Every binding of the first map is matched by an equal binding of the second. -/
def deepEqualMap : List (String × Value) → Obj → Bool
  | [], _ => true
  | (k, v) :: rest, b =>
    (match lookup b k with
      | some w => v.deepEqual w
      | none => false) && deepEqualMap rest b
end

/-- The call `equality.Semantic.DeepEqual(incluster, backup)` on two
`*unstructured.Unstructured`; `none` is the nil pointer. -/
def DeepEqual : Option Obj → Option Obj → Bool
  | none, none => true
  | some a, some b => (Value.map a).deepEqual (Value.map b)
  | _, _ => false

/-- A value as a Go program can hold it: no map binds a key twice. -/
inductive Value.WF : Value → Prop where
  | null : Value.WF Value.null
  | bool (b : Bool) : Value.WF (Value.bool b)
  | num (n : Int) : Value.WF (Value.num n)
  | str (s : String) : Value.WF (Value.str s)
  | list (xs : List Value) : (∀ x ∈ xs, Value.WF x) → Value.WF (Value.list xs)
  | map (kvs : List (String × Value)) :
      (keys kvs).Nodup → (∀ kv ∈ kvs, Value.WF kv.2) → Value.WF (Value.map kvs)

/-! ## The secret reconciler -/

/-- How a run ends: by a Go run-time panic, or normally. -/
inductive Outcome (α : Type) where
  | panic (msg : String) : Outcome α
  | done (a : α) : Outcome α

/-- The prefix of auto-provisioned secrets. -/
def defaultTokenPrefix : String := "default-token-"

/-- The loop `for i := len(secrets) - 1; i >= 0; i--` of `processServiceAccounts`
when `n` iterations remain, that is at `i = n - 1`. -/
def filterLoop : Nat → List Value → Outcome (List Value)
  | 0, secrets => Outcome.done secrets
  | i + 1, secrets =>
    match secrets[i]? with
    | none => Outcome.panic "index out of range"
    | some secret =>
      match secret with
      | Value.map m =>
        let val := match GetString (some m) "name" with
          | Except.ok str => str
          | Except.error _ => ""
        if strings_HasPrefix val defaultTokenPrefix then
          filterLoop i (secrets.take i ++ secrets.drop (i + 1))
        else filterLoop i secrets
      | _ => Outcome.panic "interface conversion: interface \x7b\x7d is not map[string]interface \x7b\x7d"

/-- The value of `GetSlice(obj, "secrets")` with the error dropped: the nil
slice on failure. -/
def secretsOf (obj : Obj) : List Value :=
  match GetSlice (some obj) "secrets" with
  | Except.ok secrets => secrets
  | Except.error _ => []

/-- Lines 134-146 of `processServiceAccounts`, on the normalized backup: the
filtered `secrets` and the backup with them attached. -/
def filterBackup (backup : Obj) : Outcome (List Value × Obj) :=
  match filterLoop (secretsOf backup).length (secretsOf backup) with
  | Outcome.panic msg => Outcome.panic msg
  | Outcome.done secrets => Outcome.done (secrets, assign backup "secrets" (Value.list secrets))

/-- Lines 154-160 of `processServiceAccounts`: the desired document, from the
deep copy of `incluster`. -/
def buildDesired (incluster backup : Obj) (secrets : List Value) : Obj :=
  let desired := incluster
  let desired := assign desired "imagePullSecrets" (index backup "imagePullSecrets")
  if secrets.length ≠ 0 then
    let clusterSecrets := secretsOf desired
    assign desired "secrets" (Value.list (clusterSecrets ++ secrets))
  else desired

/-- The pointer a caller keeps from `x, _ = resetMetadataAndStatus(x)`. -/
def resetPtr (obj : Obj) : Option Obj :=
  match (resetMetadataAndStatus obj).ret with
  | Except.ok o => some o
  | Except.error _ => none

/-- The state of `processServiceAccounts` after line 161. -/
structure Report where
  incluster : Option Obj
  backup : Obj
  secrets : List Value
  areEqual : Bool
  desired : Option Obj

/-- The function `processServiceAccounts` up to line 161, on the two decoded
documents.  A nil `*Unstructured` is `none`; using one panics. -/
def processServiceAccounts (inclusterIn backupIn : Obj) : Outcome Report :=
  let incluster := resetPtr inclusterIn
  match resetPtr backupIn with
  | none => Outcome.panic "invalid memory address or nil pointer dereference"
  | some backup =>
    match filterBackup backup with
    | Outcome.panic msg => Outcome.panic msg
    | Outcome.done (secrets, backup) =>
      let areEqual := DeepEqual incluster (some backup)
      if areEqual then
        Outcome.done
          { incluster := incluster, backup := backup, secrets := secrets,
            areEqual := areEqual, desired := none }
      else
        match incluster with
        | none => Outcome.panic "invalid memory address or nil pointer dereference"
        | some inc =>
          Outcome.done
            { incluster := incluster, backup := backup, secrets := secrets,
              areEqual := areEqual, desired := some (buildDesired inc backup secrets) }

/-! ## Notions the statements use -/

/-- The entry is a map whose `name` is a string with the default-token prefix. -/
def isDefaultToken : Value → Bool
  | Value.map m =>
    match lookup m "name" with
    | some (Value.str name) => strings_HasPrefix name defaultTokenPrefix
    | _ => false
  | _ => false

/-- The entry is a map with a string `name`. -/
def isSecretRef : Value → Bool
  | Value.map m =>
    match lookup m "name" with
    | some (Value.str _) => true
    | _ => false
  | _ => false

/-- Forward-order filter: the entries that are not default tokens. -/
def keepSecrets (secrets : List Value) : List Value :=
  secrets.filter (fun e => !isDefaultToken e)

/-- The `secrets` list of a document, empty when it has none. -/
def secretsList (obj : Obj) : List Value :=
  match lookup obj "secrets" with
  | some (Value.list xs) => xs
  | _ => []

/-- The value is a list. -/
def Value.isList : Value → Bool
  | Value.list _ => true
  | _ => false

/-- The value is a string. -/
def Value.isStr : Value → Bool
  | Value.str _ => true
  | _ => false

/-- The filtered backup as the no-op claim words it: the normalized backup with
the default-token entries removed from its `secrets` list and nothing else
changed, so that a backup without a `secrets` list stays as it is. -/
def filteredAsClaimed (B : Obj) : Obj :=
  match lookup (resetMetadataAndStatus B).obj "secrets" with
  | some (Value.list S) =>
    assign (resetMetadataAndStatus B).obj "secrets" (Value.list (keepSecrets S))
  | _ => (resetMetadataAndStatus B).obj

/-! ## Concrete documents -/

/-- The in-cluster document of the end-to-end scenario. -/
def scenarioIncluster : Obj :=
  [("metadata", Value.map [("name", Value.str "sa"), ("uid", Value.str "123")]),
   ("secrets", Value.list [Value.map [("name", Value.str "sa-token-xyz")]])]

/-- The backup document of the end-to-end scenario. -/
def scenarioBackup : Obj :=
  [("metadata", Value.map [("name", Value.str "sa")]),
   ("status", Value.map [("x", Value.num 1)]),
   ("secrets", Value.list [Value.map [("name", Value.str "default-token-abc")],
      Value.map [("name", Value.str "sa-token-xyz")]])]

/-- Both documents of the scenario after normalization and filtering. -/
def scenarioNormalized : Obj :=
  [("metadata", Value.map [("name", Value.str "sa")]),
   ("secrets", Value.list [Value.map [("name", Value.str "sa-token-xyz")]])]

/-- A document with an empty `metadata` and nothing else. -/
def bareDoc : Obj := [("metadata", Value.map [])]

/-- An in-cluster document with one secret `a` and pull secret `x`. -/
def mergeIncluster : Obj :=
  [("metadata", Value.map [("name", Value.str "sa")]),
   ("secrets", Value.list [Value.map [("name", Value.str "a")]]),
   ("imagePullSecrets", Value.list [Value.map [("name", Value.str "x")]])]

/-- A backup with a default token, one secret `b` and pull secret `y`. -/
def mergeBackup : Obj :=
  [("metadata", Value.map [("name", Value.str "sa")]),
   ("secrets", Value.list [Value.map [("name", Value.str "default-token-1")],
      Value.map [("name", Value.str "b")]]),
   ("imagePullSecrets", Value.list [Value.map [("name", Value.str "y")]])]

/-- A document with a `status` and no `metadata`. -/
def statusOnlyDoc : Obj := [("status", Value.map [("phase", Value.str "Active")])]

/-- A backup whose only secret has no `name`. -/
def namelessBackup : Obj :=
  [("metadata", Value.map []), ("secrets", Value.list [Value.map [("kind", Value.str "Secret")]])]

/-- A backup with a nameless secret between a default token and a named one. -/
def lenientBackup : Obj :=
  [("metadata", Value.map []),
   ("secrets", Value.list [Value.map [("name", Value.str "default-token-q")],
      Value.map [("name", Value.num 7)],
      Value.map [("name", Value.str "kept")]])]

/-- A document without `metadata`. -/
def noMetadataDoc : Obj := [("secrets", Value.list [])]

/-- A document with two levels, a list and a null. -/
def accessorDoc : Obj :=
  [("metadata", Value.map [("name", Value.str "sa"), ("labels", Value.null)]),
   ("secrets", Value.list [])]

/-! ## Facts about `strings.Split` and `strings.Join` -/

theorem splitDot_ne_nil (cs : List Char) : splitDot cs ≠ [] := by
  induction cs with
  | nil => simp [splitDot]
  | cons c cs ih =>
    unfold splitDot
    split
    · simp
    · split <;> simp

theorem splitDot_noDot (cs : List Char) : ∀ seg ∈ splitDot cs, '.' ∉ seg := by
  induction cs with
  | nil => simp [splitDot]
  | cons c cs ih =>
    unfold splitDot
    split
    · intro seg hseg
      rcases List.mem_cons.1 hseg with h | h
      · subst h; simp
      · exact ih seg h
    · rename_i hc
      split
      · simp; exact fun h => hc h.symm
      · rename_i seg segs heq
        intro s hs
        rw [heq] at ih
        rcases List.mem_cons.1 hs with h | h
        · subst h
          have := ih seg (List.mem_cons_self _ _)
          simp only [List.mem_cons, not_or]
          exact ⟨fun h => hc h.symm, this⟩
        · exact ih s (List.mem_cons_of_mem _ h)

theorem splitDot_of_noDot (a : List Char) (h : '.' ∉ a) : splitDot a = [a] := by
  induction a with
  | nil => rfl
  | cons c cs ih =>
    simp only [List.mem_cons, not_or] at h
    unfold splitDot
    rw [if_neg (fun e => h.1 e.symm), ih h.2]

theorem splitDot_append_dot (a cs : List Char) (h : '.' ∉ a) :
    splitDot (a ++ '.' :: cs) = a :: splitDot cs := by
  induction a with
  | nil => simp [splitDot]
  | cons c a ih =>
    simp only [List.mem_cons, not_or] at h
    have hc : ¬ c = '.' := fun e => h.1 e.symm
    have e : splitDot (c :: (a ++ '.' :: cs)) =
        (match splitDot (a ++ '.' :: cs) with
          | [] => [[c]]
          | seg :: segs => (c :: seg) :: segs) := by
      simp only [splitDot, if_neg hc]
    rw [List.cons_append, e, ih h.2]

theorem splitDot_joinDot (segs : List (List Char)) (hne : segs ≠ [])
    (hdot : ∀ seg ∈ segs, '.' ∉ seg) : splitDot (joinDot segs) = segs := by
  induction segs with
  | nil => exact absurd rfl hne
  | cons a rest ih =>
    cases rest with
    | nil => exact splitDot_of_noDot a (hdot a (List.mem_cons_self _ _))
    | cons b rest =>
      simp only [joinDot]
      rw [splitDot_append_dot a _ (hdot a (List.mem_cons_self _ _))]
      rw [ih (by simp) (fun s hs => hdot s (List.mem_cons_of_mem _ hs))]

theorem joinDot_cons_cons (c : Char) (seg : List Char) (segs : List (List Char)) :
    joinDot ((c :: seg) :: segs) = c :: joinDot (seg :: segs) := by
  cases segs <;> simp [joinDot]

theorem joinDot_splitDot (cs : List Char) : joinDot (splitDot cs) = cs := by
  induction cs with
  | nil => rfl
  | cons c cs ih =>
    unfold splitDot
    split
    · rename_i hc
      cases h : splitDot cs with
      | nil => exact absurd h (splitDot_ne_nil cs)
      | cons s ss =>
        rw [h] at ih
        simp only [joinDot, List.nil_append, ih, hc]
    · split
      · rename_i h
        exact absurd h (splitDot_ne_nil cs)
      · rename_i seg segs heq
        rw [heq] at ih
        rw [joinDot_cons_cons, ih]

theorem strings_Join_data (parts : List String) :
    (strings_Join parts).data = joinDot (parts.map String.data) := by
  induction parts with
  | nil => rfl
  | cons a rest ih =>
    cases rest with
    | nil => rfl
    | cons b rest =>
      simp only [strings_Join, String.data_append, List.map_cons, joinDot] at ih ⊢
      rw [ih]
      simp

theorem strings_Split_ne_nil (path : String) : strings_Split path ≠ [] := by
  simp [strings_Split, splitDot_ne_nil]

/-- Splitting the re-joined tail of a split path gives that tail back. -/
theorem strings_Split_Join_tail (path : String) (key b : String) (rest : List String)
    (h : strings_Split path = key :: b :: rest) :
    strings_Split (strings_Join (b :: rest)) = b :: rest := by
  have hdot : ∀ seg ∈ (b :: rest).map String.data, '.' ∉ seg := by
    intro seg hseg
    obtain ⟨s, hs, rfl⟩ := List.mem_map.1 hseg
    have hs2 : s ∈ strings_Split path := by rw [h]; exact List.mem_cons_of_mem _ hs
    obtain ⟨cs, hcs, rfl⟩ := List.mem_map.1 hs2
    exact splitDot_noDot _ cs hcs
  unfold strings_Split
  rw [strings_Join_data, splitDot_joinDot _ (by simp) hdot]
  simp [List.map_map, Function.comp_def]

theorem length_splitDot_le (cs : List Char) : (splitDot cs).length ≤ cs.length + 1 := by
  induction cs with
  | nil => simp [splitDot]
  | cons c cs ih =>
    unfold splitDot
    split
    · simpa using ih
    · split
      · simp
      · rename_i seg segs heq
        rw [heq] at ih
        simp only [List.length_cons] at ih ⊢
        omega

theorem length_strings_Split_le (path : String) :
    (strings_Split path).length ≤ path.length + 1 := by
  simpa [strings_Split] using length_splitDot_le path.data

/-! ## `GetValue` is the walk along the split path -/

theorem GetValueFuel_eq_walk (fuel : Nat) : ∀ (m : Obj) (path : String),
    (strings_Split path).length ≤ fuel →
    GetValueFuel fuel (some m) path = walk m (strings_Split path) := by
  induction fuel with
  | zero =>
    intro m path h
    have := strings_Split_ne_nil path
    cases hp : strings_Split path with
    | nil => exact absurd hp this
    | cons a l => rw [hp] at h; simp at h
  | succ fuel ih =>
    intro m path h
    cases hp : strings_Split path with
    | nil => exact absurd hp (strings_Split_ne_nil path)
    | cons key rest =>
      rw [hp] at h
      simp only [GetValueFuel, hp, List.headD_cons, walk, List.length_cons, List.tail_cons]
      cases hl : lookup m key with
      | none => rfl
      | some obj =>
        cases rest with
        | nil => simp
        | cons b rest =>
          simp only [List.length_cons] at h
          have hsplit := strings_Split_Join_tail path key b rest hp
          cases obj with
          | map subMap =>
            simp only [List.length_cons]
            rw [if_neg (by omega), ih subMap _ (by rw [hsplit]; simp; omega), hsplit]
          | _ => simp

/-- The function `GetValue` terminates with the result of the iterated lookup:
the recursion bound of the model is never reached. -/
theorem GetValue_eq_walk (m : Obj) (path : String) :
    GetValue (some m) path = walk m (strings_Split path) :=
  GetValueFuel_eq_walk _ m path (length_strings_Split_le path)

/-! ## Error messages are told apart by their text -/

theorem errKeyNotFound_inj (a b : String) (h : errKeyNotFound a = errKeyNotFound b) : a = b := by
  have h2 := congrArg String.data h
  simp only [errKeyNotFound, String.data_append] at h2
  have h3 := List.append_cancel_right h2
  have h4 := List.append_cancel_left h3
  exact String.ext h4

theorem errKeyNotFound_ne_errKeyNotMap (a b : String) : errKeyNotFound a ≠ errKeyNotMap b := by
  intro h
  have h2 := congrArg String.data h
  simp only [errKeyNotFound, errKeyNotMap, String.data_append] at h2
  have h3 := congrArg List.head? h2
  simp [List.append_assoc] at h3

/-! ## Walks and reachable maps -/

theorem walk_step (m sub : Obj) (key b : String) (r : List String)
    (h : lookup m key = some (Value.map sub)) : walk m (key :: b :: r) = walk sub (b :: r) := by
  simp only [walk, h]

theorem walk_of_Reaches (pre : List String) : ∀ (m mk : Obj) (s : String) (post : List String),
    Reaches m pre mk → walk m (pre ++ s :: post) = walk mk (s :: post) := by
  induction pre with
  | nil =>
    intro m mk s post h
    simp only [Reaches] at h
    subst h
    rfl
  | cons p pre ih =>
    intro m mk s post h
    obtain ⟨sub, hsub, hr⟩ := h
    have := ih sub mk s post hr
    cases hpre : pre ++ s :: post with
    | nil => simp at hpre
    | cons x xs =>
      rw [hpre] at this
      rw [List.cons_append, hpre, walk_step m sub p x xs hsub]
      exact this

theorem walk_ok_iff (parts : List String) : ∀ (m : Obj) (v : Value),
    walk m parts = Except.ok v ↔
      ∃ pre sn mk, parts = pre ++ [sn] ∧ Reaches m pre mk ∧ lookup mk sn = some v := by
  intro m v
  constructor
  · induction parts generalizing m with
    | nil => intro h; simp [walk] at h
    | cons key rest ih =>
      intro h
      cases hl : lookup m key with
      | none => simp [walk, hl] at h
      | some obj =>
        cases rest with
        | nil =>
          simp only [walk, hl, Except.ok.injEq] at h
          exact ⟨[], key, m, rfl, rfl, by rw [hl, h]⟩
        | cons b r =>
          cases obj with
          | map sub =>
            simp only [walk, hl] at h
            obtain ⟨pre, sn, mk, hp, hr, hv⟩ := ih sub h
            exact ⟨key :: pre, sn, mk, by rw [hp]; rfl, ⟨sub, hl, hr⟩, hv⟩
          | _ => simp [walk, hl] at h
  · rintro ⟨pre, sn, mk, hp, hr, hv⟩
    rw [hp, walk_of_Reaches pre m mk sn [] hr]
    simp [walk, hv]

theorem walk_notFound_iff (parts : List String) (hne : parts ≠ []) : ∀ (m : Obj) (k : String),
    walk m parts = Except.error (errKeyNotFound k) ↔
      ∃ pre post mk, parts = pre ++ k :: post ∧ Reaches m pre mk ∧ lookup mk k = none := by
  intro m k
  constructor
  · induction parts generalizing m with
    | nil => exact absurd rfl hne
    | cons key rest ih =>
      intro h
      cases hl : lookup m key with
      | none =>
        simp only [walk, hl, Except.error.injEq] at h
        have hk := errKeyNotFound_inj _ _ h
        subst hk
        exact ⟨[], rest, m, rfl, rfl, hl⟩
      | some obj =>
        cases rest with
        | nil => simp [walk, hl] at h
        | cons b r =>
          cases obj with
          | map sub =>
            simp only [walk, hl] at h
            obtain ⟨pre, post, mk, hp, hr, hv⟩ := ih (by simp) sub h
            exact ⟨key :: pre, post, mk, by rw [hp]; rfl, ⟨sub, hl, hr⟩, hv⟩
          | _ =>
            simp only [walk, hl, Except.error.injEq] at h
            exact absurd h.symm (errKeyNotFound_ne_errKeyNotMap _ _)
  · rintro ⟨pre, post, mk, hp, hr, hv⟩
    rw [hp, walk_of_Reaches pre m mk k post hr]
    simp [walk, hv]

theorem walk_notMap (m mk : Obj) (pre post : List String) (sk : String) (v : Value)
    (hpost : post ≠ []) (hr : Reaches m pre mk) (hv : lookup mk sk = some v)
    (hmap : v.isMap = false) :
    walk m (pre ++ sk :: post) = Except.error (errKeyNotMap sk) := by
  rw [walk_of_Reaches pre m mk sk post hr]
  cases post with
  | nil => exact absurd rfl hpost
  | cons b r =>
    cases v with
    | map sub => simp [Value.isMap] at hmap
    | _ => simp [walk, hv]

/-! ## Facts about maps -/

theorem lookup_delete (m : Obj) (k k' : String) :
    lookup (delete m k) k' = if k = k' then none else lookup m k' := by
  induction m with
  | nil => simp [delete, lookup]
  | cons kv rest ih =>
    obtain ⟨a, v⟩ := kv
    by_cases h : a = k
    · subst h
      simp only [delete, if_true]
      rw [ih]
      by_cases h2 : a = k' <;> simp [lookup, h2]
    · by_cases h2 : a = k'
      · subst h2
        simp [delete, lookup, h, Ne.symm h]
      · simp [delete, lookup, h, h2, ih]

theorem lookup_assign (m : Obj) (k k' : String) (v : Value) :
    lookup (assign m k v) k' = if k = k' then some v else lookup m k' := by
  induction m with
  | nil => simp [assign, lookup]
  | cons kv rest ih =>
    obtain ⟨a, w⟩ := kv
    by_cases h : a = k
    · subst h
      by_cases h2 : a = k'
      · simp [assign, lookup, h2]
      · simp [assign, lookup, h2]
    · by_cases h2 : a = k'
      · subst h2
        simp [assign, lookup, h, Ne.symm h]
      · simp [assign, lookup, h, h2, ih]

theorem assign_self (m : Obj) (k : String) (v : Value) (h : lookup m k = some v) :
    assign m k v = m := by
  induction m with
  | nil => simp [lookup] at h
  | cons kv rest ih =>
    obtain ⟨a, w⟩ := kv
    by_cases h1 : a = k
    · simp only [lookup, h1, if_true, Option.some.injEq] at h
      simp [assign, h1, h]
    · simp only [lookup, h1, if_false] at h
      simp [assign, h1, ih h]

theorem delete_eq_filter (m : Obj) (k : String) :
    delete m k = m.filter (fun kv => decide (kv.1 ≠ k)) := by
  induction m with
  | nil => rfl
  | cons kv rest ih =>
    obtain ⟨a, w⟩ := kv
    by_cases h : a = k <;> simp [delete, List.filter_cons, h, ih]

theorem lookup_eq_none_iff (m : Obj) (k : String) : lookup m k = none ↔ k ∉ keys m := by
  induction m with
  | nil => simp [lookup, keys]
  | cons kv rest ih =>
    obtain ⟨a, w⟩ := kv
    by_cases h : a = k
    · simp [lookup, keys, h]
    · simp only [lookup, h, if_false, ih, keys, List.map_cons, List.mem_cons, not_or]
      exact ⟨fun h2 => ⟨fun e => h e.symm, h2⟩, fun h2 => h2.2⟩

theorem delete_of_lookup_none (m : Obj) (k : String) (h : lookup m k = none) :
    delete m k = m := by
  rw [delete_eq_filter, List.filter_eq_self]
  intro kv hkv
  have hk := (lookup_eq_none_iff m k).1 h
  simp only [ne_eq, decide_eq_true_eq]
  intro e
  exact hk (by rw [← e]; exact List.mem_map_of_mem Prod.fst hkv)

/-! ## Facts about the accessor on a one-segment path -/

theorem GetValue_single (m : Obj) (path key : String) (h : strings_Split path = [key]) :
    GetValue (some m) path =
      match lookup m key with
      | some v => Except.ok v
      | none => Except.error (errKeyNotFound key) := by
  rw [GetValue_eq_walk, h]
  cases hl : lookup m key <;> simp [walk, hl]

theorem GetMap_metadata (d : Obj) :
    GetMap (some d) "metadata" =
      match lookup d "metadata" with
      | some (Value.map md) => Except.ok md
      | some _ => Except.error (errPathNotMap "metadata")
      | none => Except.error (errKeyNotFound "metadata") := by
  unfold GetMap
  rw [GetValue_single d "metadata" "metadata" (by decide)]
  cases hl : lookup d "metadata" with
  | none => rfl
  | some v => cases v <;> rfl

theorem secretsOf_eq (d : Obj) : secretsOf d = secretsList d := by
  unfold secretsOf secretsList GetSlice
  rw [GetValue_single d "secrets" "secrets" (by decide)]
  cases hl : lookup d "secrets" with
  | none => rfl
  | some v => cases v <;> rfl

theorem hasPrefix_name (m : Obj) :
    strings_HasPrefix
      (match GetString (some m) "name" with
        | Except.ok str => str
        | Except.error _ => "") defaultTokenPrefix = isDefaultToken (Value.map m) := by
  unfold GetString isDefaultToken
  rw [GetValue_single m "name" "name" (by decide)]
  cases hl : lookup m "name" with
  | none => simp only [hl]; decide
  | some v => cases v <;> simp only [hl] <;> decide

/-! ## The normalizer loop is a filter -/

theorem resetStep_eq_filter (m : Obj) (k : String) :
    resetStep m k = m.filter (fun kv => keptKey kv.1 || decide (kv.1 ≠ k)) := by
  unfold resetStep
  by_cases h : keptKey k = true
  · rw [if_pos h]
    symm
    rw [List.filter_eq_self]
    intro kv _
    by_cases e : kv.1 = k
    · simp [e, h]
    · simp [e]
  · rw [if_neg h, delete_eq_filter]
    apply List.filter_congr
    intro kv _
    by_cases e : kv.1 = k
    · simp [e, h]
    · simp [e]

theorem resetLoop_eq_filter (ks : List String) : ∀ m : Obj,
    resetLoop ks m = m.filter (fun kv => keptKey kv.1 || decide (kv.1 ∉ ks)) := by
  induction ks with
  | nil => intro m; simp [resetLoop]
  | cons k ks ih =>
    intro m
    have := ih (resetStep m k)
    unfold resetLoop at this ⊢
    rw [List.foldl_cons, this, resetStep_eq_filter, List.filter_filter]
    apply List.filter_congr
    intro kv _
    by_cases e : kv.1 = k
    · subst e
      by_cases hk : keptKey kv.1 = true <;> simp [hk]
    · by_cases hk : keptKey kv.1 = true <;> simp [e, hk]

/-- Whatever order the loop visits the keys in, it leaves exactly the bindings
of the kept keys. -/
theorem resetLoop_any_order (ks : List String) (m : Obj) (h : ∀ k ∈ keys m, k ∈ ks) :
    resetLoop ks m = m.filter (fun kv => keptKey kv.1) := by
  rw [resetLoop_eq_filter]
  apply List.filter_congr
  intro kv hkv
  have : kv.1 ∈ ks := h _ (List.mem_map_of_mem Prod.fst hkv)
  simp [this]

theorem resetLoop_keys (m : Obj) : resetLoop (keys m) m = m.filter (fun kv => keptKey kv.1) :=
  resetLoop_any_order (keys m) m (fun _ h => h)

/-- The normalizer on a document whose `metadata` is the map `md`. -/
theorem reset_of_map (d md : Obj) (h : lookup d "metadata" = some (Value.map md)) :
    resetMetadataAndStatus d =
      { obj := delete (assign d "metadata" (Value.map (md.filter (fun kv => keptKey kv.1)))) "status",
        ret := Except.ok
          (delete (assign d "metadata" (Value.map (md.filter (fun kv => keptKey kv.1)))) "status") } := by
  unfold resetMetadataAndStatus
  rw [GetMap_metadata, h]
  simp only [resetLoop_keys]

theorem reset_of_not_map (d : Obj) (h : ∀ md, lookup d "metadata" ≠ some (Value.map md)) :
    resetMetadataAndStatus d = { obj := d, ret := GetMap (some d) "metadata" } ∧
      ∃ e, GetMap (some d) "metadata" = Except.error e := by
  unfold resetMetadataAndStatus
  rw [GetMap_metadata]
  cases hl : lookup d "metadata" with
  | none => exact ⟨rfl, _, rfl⟩
  | some v =>
    cases v with
    | map md => exact absurd hl (h md)
    | _ => exact ⟨rfl, _, rfl⟩

/-! ## The removal loop is a forward filter -/

theorem filterLoop_spec (n : Nat) : ∀ (L : List Value), n ≤ L.length →
    (∀ e ∈ L.take n, e.isMap = true) →
    filterLoop n L = Outcome.done (keepSecrets (L.take n) ++ L.drop n) := by
  induction n with
  | zero => intro L _ _; simp [filterLoop, keepSecrets]
  | succ n ih =>
    intro L hn hmaps
    have hlt : n < L.length := hn
    have htake : L.take (n + 1) = L.take n ++ [L[n]] := by
      rw [List.take_succ, List.getElem?_eq_getElem hlt]; rfl
    have hdrop : L.drop n = L[n] :: L.drop (n + 1) := List.drop_eq_getElem_cons hlt
    have he : (L[n]).isMap = true := hmaps _ (by rw [htake]; exact List.mem_append_right _ (List.mem_singleton_self _))
    have hpre : ∀ e ∈ L.take n, e.isMap = true := fun e h =>
      hmaps e (by rw [htake]; exact List.mem_append_left _ h)
    cases hv : L[n] with
    | map m =>
      simp only [filterLoop, List.getElem?_eq_getElem hlt, hv, hasPrefix_name]
      by_cases hp : isDefaultToken (Value.map m) = true
      · rw [if_pos hp]
        have hlen : (L.take n).length = n := List.length_take_of_le (Nat.le_of_lt hlt)
        have h1 : (L.take n ++ L.drop (n + 1)).take n = L.take n := by
          rw [List.take_append_of_le_length (by omega), List.take_of_length_le (by omega)]
        have h2 : (L.take n ++ L.drop (n + 1)).drop n = L.drop (n + 1) := by
          rw [List.drop_append_of_le_length (by omega), List.drop_of_length_le (by omega)]
          rfl
        rw [ih _ (by simp; omega) (by rw [h1]; exact hpre), h1, h2, htake, hv]
        simp [keepSecrets, List.filter_append, hp]
      · rw [if_neg hp, ih L (Nat.le_of_lt hlt) hpre, htake, hdrop, hv]
        simp [keepSecrets, List.filter_append, hp]
    | _ => rw [hv] at he; simp [Value.isMap] at he

theorem filterLoop_all (L : List Value) (h : ∀ e ∈ L, e.isMap = true) :
    filterLoop L.length L = Outcome.done (keepSecrets L) := by
  rw [filterLoop_spec L.length L (Nat.le_refl _) (fun e he => h e (List.mem_of_mem_take he))]
  simp

theorem isMap_of_isSecretRef (e : Value) (h : isSecretRef e = true) : e.isMap = true := by
  cases e <;> simp_all [isSecretRef, Value.isMap]

/-! ## The pipeline, step by step -/

theorem resetPtr_of_map (d md : Obj) (h : lookup d "metadata" = some (Value.map md)) :
    resetPtr d = some (resetMetadataAndStatus d).obj := by
  unfold resetPtr
  rw [reset_of_map d md h]

theorem processServiceAccounts_done (I B : Obj) (r : Report)
    (h : processServiceAccounts I B = Outcome.done r) :
    ∃ nb, resetPtr B = some nb ∧ filterBackup nb = Outcome.done (r.secrets, r.backup) ∧
      r.incluster = resetPtr I ∧ r.areEqual = DeepEqual (resetPtr I) (some r.backup) ∧
      ((r.areEqual = true ∧ r.desired = none) ∨
        (r.areEqual = false ∧ ∃ inc, resetPtr I = some inc ∧
          r.desired = some (buildDesired inc r.backup r.secrets))) := by
  unfold processServiceAccounts at h
  cases hb : resetPtr B with
  | none => simp [hb] at h
  | some nb =>
    simp only [hb] at h
    cases hf : filterBackup nb with
    | panic msg => simp [hf] at h
    | done res =>
      obtain ⟨secrets, backup⟩ := res
      simp only [hf] at h
      by_cases he : DeepEqual (resetPtr I) (some backup) = true
      · rw [if_pos he] at h
        injection h with h
        subst h
        exact ⟨nb, rfl, hf, rfl, rfl, Or.inl ⟨he, rfl⟩⟩
      · rw [if_neg he] at h
        cases hi : resetPtr I with
        | none => simp [hi] at h
        | some inc =>
          simp only [hi] at h he
          injection h with h
          subst h
          have he2 : DeepEqual (some inc) (some backup) = false := by simpa using he
          exact ⟨nb, rfl, hf, rfl, rfl, Or.inr ⟨he2, inc, rfl, rfl⟩⟩

theorem length_filter_not_countP (p : Value → Bool) (S : List Value) :
    (S.filter (fun e => !p e)).length = S.length - S.countP p := by
  induction S with
  | nil => rfl
  | cons x xs ih =>
    have hle : xs.countP p ≤ xs.length := List.countP_le_length p
    by_cases h : p x = true
    · simp only [List.filter_cons, h, Bool.not_true, List.countP_cons_of_pos, List.length_cons]
      simp only [Bool.false_eq_true, if_false]
      omega
    · simp only [Bool.not_eq_true] at h
      simp only [List.filter_cons, h, Bool.not_false, if_true, List.length_cons, List.countP_cons,
        Bool.false_eq_true, if_false]
      omega

theorem lookup_reset_other (d md : Obj) (h : lookup d "metadata" = some (Value.map md))
    (k : String) (h1 : k ≠ "metadata") (h2 : k ≠ "status") :
    lookup (resetMetadataAndStatus d).obj k = lookup d k := by
  rw [reset_of_map d md h]
  simp only
  rw [lookup_delete, if_neg (Ne.symm h2), lookup_assign, if_neg (Ne.symm h1)]

theorem secretsList_reset (d md : Obj) (h : lookup d "metadata" = some (Value.map md)) :
    secretsList (resetMetadataAndStatus d).obj = secretsList d := by
  unfold secretsList
  rw [lookup_reset_other d md h "secrets" (by decide) (by decide)]

theorem filterBackup_of_maps (nb : Obj) (h : ∀ e ∈ secretsList nb, e.isMap = true) :
    filterBackup nb =
      Outcome.done (keepSecrets (secretsList nb),
        assign nb "secrets" (Value.list (keepSecrets (secretsList nb)))) := by
  unfold filterBackup
  rw [secretsOf_eq, filterLoop_all _ h]

theorem buildDesired_imagePullSecrets (inc bk : Obj) (F : List Value) :
    lookup (buildDesired inc bk F) "imagePullSecrets" = some (index bk "imagePullSecrets") := by
  unfold buildDesired
  by_cases hF : F.length ≠ 0
  · simp only [if_pos hF]
    rw [lookup_assign, if_neg (by decide), lookup_assign]; simp
  · simp only [if_neg hF]
    rw [lookup_assign]; simp

theorem buildDesired_secrets (inc bk : Obj) (F : List Value) (hF : F ≠ []) :
    lookup (buildDesired inc bk F) "secrets" = some (Value.list (secretsList inc ++ F)) := by
  have hlen : F.length ≠ 0 := fun e => hF (List.length_eq_zero.1 e)
  have hsl : secretsList (assign inc "imagePullSecrets" (index bk "imagePullSecrets")) =
      secretsList inc := by
    unfold secretsList
    rw [lookup_assign, if_neg (by decide)]
  unfold buildDesired
  simp only [if_pos hlen, secretsOf_eq, hsl]
  rw [lookup_assign]; simp

/-- With a map `metadata` in both documents and only maps among the backup's
secrets the run ends normally, with these results. -/
theorem processServiceAccounts_run (I B mi mb : Obj)
    (hI : lookup I "metadata" = some (Value.map mi))
    (hB : lookup B "metadata" = some (Value.map mb))
    (hmaps : ∀ e ∈ secretsList B, e.isMap = true) :
    processServiceAccounts I B =
      if (Value.map (resetMetadataAndStatus I).obj).deepEqual
          (Value.map (assign (resetMetadataAndStatus B).obj "secrets"
            (Value.list (keepSecrets (secretsList B))))) = true then
        Outcome.done
          { incluster := some (resetMetadataAndStatus I).obj,
            backup := assign (resetMetadataAndStatus B).obj "secrets"
              (Value.list (keepSecrets (secretsList B))),
            secrets := keepSecrets (secretsList B), areEqual := true, desired := none }
      else
        Outcome.done
          { incluster := some (resetMetadataAndStatus I).obj,
            backup := assign (resetMetadataAndStatus B).obj "secrets"
              (Value.list (keepSecrets (secretsList B))),
            secrets := keepSecrets (secretsList B), areEqual := false,
            desired := some (buildDesired (resetMetadataAndStatus I).obj
              (assign (resetMetadataAndStatus B).obj "secrets"
                (Value.list (keepSecrets (secretsList B))))
              (keepSecrets (secretsList B))) } := by
  have hmaps2 : ∀ e ∈ secretsList (resetMetadataAndStatus B).obj, e.isMap = true := by
    rw [secretsList_reset B mb hB]; exact hmaps
  unfold processServiceAccounts
  rw [resetPtr_of_map I mi hI, resetPtr_of_map B mb hB]
  simp only [filterBackup_of_maps _ hmaps2, secretsList_reset B mb hB, DeepEqual]
  split <;> rename_i he
  · simp only [he]
  · simp only [Bool.not_eq_true] at he
    simp only [he]

/-! ## Semantic equality is reflexive on well-formed values -/

theorem lookup_of_mem_nodup (m : Obj) (k : String) (v : Value) (hnd : (keys m).Nodup)
    (hmem : (k, v) ∈ m) : lookup m k = some v := by
  induction m with
  | nil => simp at hmem
  | cons kv rest ih =>
    obtain ⟨a, w⟩ := kv
    simp only [keys, List.map_cons, List.nodup_cons] at hnd
    rcases List.mem_cons.1 hmem with h | h
    · injection h with h1 h2
      subst h1; subst h2
      simp [lookup]
    · have hk : k ∈ List.map Prod.fst rest := List.mem_map_of_mem Prod.fst h
      have hne : a ≠ k := fun e => hnd.1 (e ▸ hk)
      simp only [lookup, if_neg hne]
      exact ih hnd.2 h

theorem lookup_mem (m : Obj) (k : String) (v : Value) (h : lookup m k = some v) :
    (k, v) ∈ m := by
  induction m with
  | nil => simp [lookup] at h
  | cons kv rest ih =>
    obtain ⟨a, w⟩ := kv
    by_cases e : a = k
    · simp only [lookup, e, if_true, Option.some.injEq] at h
      rw [e, h]; exact List.mem_cons_self _ _
    · simp only [lookup, e, if_false] at h
      exact List.mem_cons_of_mem _ (ih h)

theorem deepEqualList_refl (xs : List Value) (h : ∀ x ∈ xs, x.deepEqual x = true) :
    deepEqualList xs xs = true := by
  induction xs with
  | nil => simp [deepEqualList]
  | cons x xs ih =>
    simp only [deepEqualList, Bool.and_eq_true]
    exact ⟨h x (List.mem_cons_self _ _), ih (fun y hy => h y (List.mem_cons_of_mem _ hy))⟩

theorem deepEqualMap_of_lookup (rest b : Obj)
    (h : ∀ kv ∈ rest, lookup b kv.1 = some kv.2 ∧ kv.2.deepEqual kv.2 = true) :
    deepEqualMap rest b = true := by
  induction rest with
  | nil => simp [deepEqualMap]
  | cons kv rest ih =>
    obtain ⟨k, v⟩ := kv
    have hk := h (k, v) (List.mem_cons_self _ _)
    simp only [deepEqualMap, hk.1, hk.2, Bool.true_and]
    exact ih (fun y hy => h y (List.mem_cons_of_mem _ hy))

theorem deepEqual_refl (v : Value) (h : v.WF) : v.deepEqual v = true := by
  induction h with
  | null => simp [Value.deepEqual]
  | bool b => simp [Value.deepEqual]
  | num n => simp [Value.deepEqual]
  | str s => simp [Value.deepEqual]
  | list xs _ ih =>
    simp only [Value.deepEqual]
    exact deepEqualList_refl xs ih
  | map kvs hnd _ ih =>
    simp only [Value.deepEqual, beq_self_eq_true, Bool.true_and]
    exact deepEqualMap_of_lookup kvs kvs
      (fun kv hkv => ⟨lookup_of_mem_nodup kvs kv.1 kv.2 hnd hkv, ih kv hkv⟩)

/-! ## The map operations keep values well-formed -/

theorem keys_assign (m : Obj) (k : String) (v : Value) :
    keys (assign m k v) = if k ∈ keys m then keys m else keys m ++ [k] := by
  induction m with
  | nil => simp [assign, keys]
  | cons kv rest ih =>
    obtain ⟨a, w⟩ := kv
    by_cases e : a = k
    · simp [assign, keys, e]
    · have e2 : ¬ k = a := fun h => e h.symm
      simp only [keys] at ih
      simp only [assign, if_neg e, keys, List.map_cons, List.mem_cons, e2, false_or, ih]
      split <;> simp

theorem mem_assign (m : Obj) (k : String) (v : Value) (kv : String × Value)
    (h : kv ∈ assign m k v) : kv ∈ m ∨ kv = (k, v) := by
  induction m with
  | nil => simp [assign] at h; exact Or.inr h
  | cons x rest ih =>
    obtain ⟨a, w⟩ := x
    by_cases e : a = k
    · simp only [assign, if_pos e] at h
      rcases List.mem_cons.1 h with h | h
      · right; rw [h, e]
      · left; exact List.mem_cons_of_mem _ h
    · simp only [assign, if_neg e] at h
      rcases List.mem_cons.1 h with h | h
      · left; rw [h]; exact List.mem_cons_self _ _
      · rcases ih h with h | h
        · left; exact List.mem_cons_of_mem _ h
        · right; exact h

theorem WF_assign (m : Obj) (k : String) (v : Value) (hm : (Value.map m).WF) (hv : v.WF) :
    (Value.map (assign m k v)).WF := by
  cases hm with
  | map _ hnd hall =>
    refine Value.WF.map _ ?_ ?_
    · rw [keys_assign]
      split
      · exact hnd
      · rename_i hk
        exact List.Nodup.append hnd (List.nodup_singleton k)
          (by
            intro a ha hb
            rw [List.mem_singleton.1 hb] at ha
            exact hk ha)
    · intro kv hkv
      rcases mem_assign m k v kv hkv with h | h
      · exact hall kv h
      · rw [h]; exact hv

theorem WF_filter (m : Obj) (p : String × Value → Bool) (hm : (Value.map m).WF) :
    (Value.map (m.filter p)).WF := by
  cases hm with
  | map _ hnd hall =>
    refine Value.WF.map _ ?_ ?_
    · exact List.Nodup.sublist (List.Sublist.map Prod.fst (List.filter_sublist m)) hnd
    · intro kv hkv
      exact hall kv (List.mem_of_mem_filter hkv)

theorem WF_lookup (m : Obj) (k : String) (v : Value) (hm : (Value.map m).WF)
    (h : lookup m k = some v) : v.WF := by
  cases hm with
  | map _ _ hall => exact hall (k, v) (lookup_mem m k v h)

theorem WF_reset (d : Obj) (h : (Value.map d).WF) :
    (Value.map (resetMetadataAndStatus d).obj).WF := by
  by_cases hm : ∃ md, lookup d "metadata" = some (Value.map md)
  · obtain ⟨md, hmd⟩ := hm
    rw [reset_of_map d md hmd]
    simp only
    rw [delete_eq_filter]
    exact WF_filter _ _ (WF_assign _ _ _ h (WF_filter _ _ (WF_lookup d _ _ h hmd)))
  · have hn : ∀ md, lookup d "metadata" ≠ some (Value.map md) := fun md e => hm ⟨md, e⟩
    rw [(reset_of_not_map d hn).1]
    exact h

/-! ## The claims -/

/-- C1 (default-token filtering): when the `secrets` of the backup is a list `S`
whose entries are all maps with a string `name`, the removal loop ends normally
and the list stored back under `secrets` is the forward-order filter of `S`
that keeps the entries whose name does not start with `default-token-`; its
length is `len(S)` minus the number of entries with that prefix. -/
theorem C1_filter_default_tokens (backup : Obj) (S : List Value)
    (hS : lookup backup "secrets" = some (Value.list S))
    (hwf : ∀ e ∈ S, isSecretRef e = true) :
    filterBackup backup =
        Outcome.done (S.filter (fun e => !isDefaultToken e),
          assign backup "secrets" (Value.list (S.filter (fun e => !isDefaultToken e)))) ∧
      lookup (assign backup "secrets" (Value.list (S.filter (fun e => !isDefaultToken e))))
          "secrets" = some (Value.list (S.filter (fun e => !isDefaultToken e))) ∧
      (S.filter (fun e => !isDefaultToken e)).length = S.length - S.countP isDefaultToken := by
  have hsec : secretsOf backup = S := by
    rw [secretsOf_eq]; unfold secretsList; rw [hS]
  refine ⟨?_, ?_, length_filter_not_countP isDefaultToken S⟩
  · unfold filterBackup
    rw [hsec, filterLoop_all S (fun e he => isMap_of_isSecretRef e (hwf e he))]
    rfl
  · rw [lookup_assign]; simp

/-- C2 (metadata whitelist): on a document whose `metadata` is a map the
normalizer succeeds, and afterwards every key under `metadata` is one of
`name`, `namespace`, `labels`, `annotations` and the document has no top-level
`status` key. -/
theorem C2_metadata_whitelist (d md : Obj) (h : lookup d "metadata" = some (Value.map md)) :
    ∃ d' md', (resetMetadataAndStatus d).ret = Except.ok d' ∧
      (resetMetadataAndStatus d).obj = d' ∧
      lookup d' "metadata" = some (Value.map md') ∧
      (∀ k ∈ keys md', k = "name" ∨ k = "namespace" ∨ k = "labels" ∨ k = "annotations") ∧
      "status" ∉ keys d' := by
  refine ⟨delete (assign d "metadata" (Value.map (md.filter (fun kv => keptKey kv.1)))) "status",
    md.filter (fun kv => keptKey kv.1), ?_, ?_, ?_, ?_, ?_⟩
  · rw [reset_of_map d md h]
  · rw [reset_of_map d md h]
  · rw [lookup_delete, lookup_assign]; simp
  · intro k hk
    obtain ⟨kv, hkv, rfl⟩ := List.mem_map.1 hk
    have := (List.mem_filter.1 hkv).2
    simpa [keptKey, or_assoc] using this
  · rw [← lookup_eq_none_iff, lookup_delete]; simp

/-- C3 (GetValue is iterated lookup): the path always splits into at least one
part, and `GetValue` on a non-nil root succeeds with `v` exactly when the parts
but the last lead through nested maps to a map that binds the last part to `v`;
the empty path is the single key `""`. -/
theorem C3_GetValue_iterated_lookup (root : Obj) (path : String) (v : Value) :
    strings_Split path ≠ [] ∧
      (GetValue (some root) path = Except.ok v ↔
        ∃ pre sn mk, strings_Split path = pre ++ [sn] ∧ Reaches root pre mk ∧
          lookup mk sn = some v) ∧
      strings_Split "" = [""] ∧
      (GetValue (some root) "" = Except.ok v ↔ lookup root "" = some v) := by
  refine ⟨strings_Split_ne_nil path, ?_, by decide, ?_⟩
  · rw [GetValue_eq_walk]; exact walk_ok_iff _ root v
  · rw [GetValue_single root "" "" (by decide)]
    cases hl : lookup root "" <;> simp

/-- C4 (merge correctness): when both documents have a map `metadata` and the
backup's secrets are maps, the run ends normally comparing the normalized
in-cluster document with the filtered backup; if these are unequal and the
filtered list is non-empty, the desired document binds `secrets` to the
in-cluster document's own `secrets` list followed by the filtered list, and
`imagePullSecrets` to the value the backup holds there. -/
theorem C4_merge_correctness (I B mi mb : Obj)
    (hI : lookup I "metadata" = some (Value.map mi))
    (hB : lookup B "metadata" = some (Value.map mb))
    (hmaps : ∀ e ∈ secretsList B, e.isMap = true)
    (hne : DeepEqual (some (resetMetadataAndStatus I).obj)
      (some (assign (resetMetadataAndStatus B).obj "secrets"
        (Value.list ((secretsList B).filter (fun e => !isDefaultToken e))))) = false)
    (hF : (secretsList B).filter (fun e => !isDefaultToken e) ≠ []) :
    ∃ r d, processServiceAccounts I B = Outcome.done r ∧
      r.incluster = some (resetMetadataAndStatus I).obj ∧
      r.backup = assign (resetMetadataAndStatus B).obj "secrets"
        (Value.list ((secretsList B).filter (fun e => !isDefaultToken e))) ∧
      r.secrets = (secretsList B).filter (fun e => !isDefaultToken e) ∧
      r.areEqual = false ∧
      r.desired = some d ∧
      lookup d "secrets" = some (Value.list (secretsList I ++ r.secrets)) ∧
      lookup d "imagePullSecrets" = some (index r.backup "imagePullSecrets") ∧
      (∀ Y, lookup B "imagePullSecrets" = some Y → lookup d "imagePullSecrets" = some Y) := by
  have hrun := processServiceAccounts_run I B mi mb hI hB hmaps
  unfold keepSecrets at hrun
  have hne2 : (Value.map (resetMetadataAndStatus I).obj).deepEqual
      (Value.map (assign (resetMetadataAndStatus B).obj "secrets"
        (Value.list ((secretsList B).filter (fun e => !isDefaultToken e))))) = false := hne
  rw [if_neg (by rw [hne2]; simp)] at hrun
  refine ⟨_, _, hrun, rfl, rfl, rfl, rfl, rfl, ?_, ?_, ?_⟩
  · rw [buildDesired_secrets _ _ _ hF, secretsList_reset I mi hI]
  · exact buildDesired_imagePullSecrets _ _ _
  · intro Y hY
    rw [buildDesired_imagePullSecrets]
    unfold index
    rw [lookup_assign, if_neg (by decide), lookup_reset_other B mb hB "imagePullSecrets"
      (by decide) (by decide), hY]

/-- C5 (idempotence of normalization): when the normalizer succeeds on a
document, it succeeds again on the result and leaves it as it is. -/
theorem C5_normalize_idempotent (d d' : Obj)
    (h : (resetMetadataAndStatus d).ret = Except.ok d') :
    (resetMetadataAndStatus d').ret = Except.ok d' ∧ (resetMetadataAndStatus d').obj = d' := by
  by_cases hm : ∃ md, lookup d "metadata" = some (Value.map md)
  · obtain ⟨md, hmd⟩ := hm
    rw [reset_of_map d md hmd] at h
    simp only [Except.ok.injEq] at h
    have hl : lookup d' "metadata" = some (Value.map (md.filter (fun kv => keptKey kv.1))) := by
      rw [← h, lookup_delete, lookup_assign]; simp
    have hs : lookup d' "status" = none := by
      rw [← h, lookup_delete]; simp
    rw [reset_of_map d' _ hl, List.filter_filter]
    simp only [Bool.and_self]
    rw [assign_self d' _ _ hl, delete_of_lookup_none d' _ hs]
    exact ⟨rfl, rfl⟩
  · have hn : ∀ md, lookup d "metadata" ≠ some (Value.map md) := fun md e => hm ⟨md, e⟩
    obtain ⟨hr, e, he⟩ := reset_of_not_map d hn
    rw [hr] at h
    simp only at h
    rw [he] at h
    cases h

/-- C6, as stated, fails: two identical documents with no `secrets` key are
equal after normalization, and the claim's filtering leaves the backup without
`secrets`, yet the run reports them unequal and produces a desired document,
because the backup is always given a `secrets` key before the comparison. -/
theorem C6_noop_counterexample :
    ¬ (∀ I B mi mb : Obj, lookup I "metadata" = some (Value.map mi) →
        lookup B "metadata" = some (Value.map mb) →
        (resetMetadataAndStatus I).obj = filteredAsClaimed B →
        ∃ r, processServiceAccounts I B = Outcome.done r ∧ r.areEqual = true ∧
          r.desired = none) := by
  intro h
  obtain ⟨r, hr, he, _⟩ := h bareDoc bareDoc [] [] rfl rfl rfl
  have h0 : processServiceAccounts bareDoc bareDoc =
      Outcome.done
        { incluster := some bareDoc,
          backup := [("metadata", Value.map []), ("secrets", Value.list [])],
          secrets := [], areEqual := false,
          desired := some [("metadata", Value.map []), ("imagePullSecrets", Value.null)] } := rfl
  rw [h0] at hr
  injection hr with hr
  rw [← hr] at he
  exact absurd he (by simp)

/-- C6 (no-op case, amended): the filtered backup always carries a `secrets`
key, bound to the backup's non-default-token secrets (the empty list when the
backup has no `secrets` list).  When the normalized in-cluster document is
exactly that document, the run ends normally with equality result `true` and
no desired document. -/
theorem C6_noop_amended (I B mi mb : Obj)
    (hI : lookup I "metadata" = some (Value.map mi))
    (hB : lookup B "metadata" = some (Value.map mb))
    (hwf : (Value.map I).WF)
    (hmaps : ∀ e ∈ secretsList B, e.isMap = true)
    (heq : (resetMetadataAndStatus I).obj =
      assign (resetMetadataAndStatus B).obj "secrets"
        (Value.list ((secretsList B).filter (fun e => !isDefaultToken e)))) :
    ∃ r, processServiceAccounts I B = Outcome.done r ∧
      r.incluster = some (resetMetadataAndStatus I).obj ∧
      r.backup = (resetMetadataAndStatus I).obj ∧
      r.areEqual = true ∧ r.desired = none := by
  have hrun := processServiceAccounts_run I B mi mb hI hB hmaps
  unfold keepSecrets at hrun
  rw [← heq, if_pos (deepEqual_refl _ (WF_reset I hwf))] at hrun
  exact ⟨_, hrun, rfl, rfl, rfl, rfl⟩

/-- C7 (end-to-end scenario): on the two documents of the scenario, normalization
and filtering leave both as `metadata: name: sa` with the one secret
`sa-token-xyz`, the equality result is `true` and no desired document is
produced. -/
theorem C7_end_to_end :
    (resetMetadataAndStatus scenarioIncluster).ret = Except.ok scenarioNormalized ∧
      (resetMetadataAndStatus scenarioBackup).ret =
        Except.ok [("metadata", Value.map [("name", Value.str "sa")]),
          ("secrets", Value.list [Value.map [("name", Value.str "default-token-abc")],
            Value.map [("name", Value.str "sa-token-xyz")]])] ∧
      processServiceAccounts scenarioIncluster scenarioBackup =
        Outcome.done
          { incluster := some scenarioNormalized, backup := scenarioNormalized,
            secrets := [Value.map [("name", Value.str "sa-token-xyz")]],
            areEqual := true, desired := none } :=
  ⟨rfl, rfl, rfl⟩

/-- C8 (normalizer failure): the normalizer fails exactly when the document has
no `metadata` key or a `metadata` that is not a map, with the error of
`GetMap(document, "metadata")` (not-found when absent, type mismatch when not a
map); on a map `metadata` it succeeds and returns the document it was given. -/
theorem C8_normalizer_failure (d : Obj) :
    ((∃ e, (resetMetadataAndStatus d).ret = Except.error e) ↔
        (lookup d "metadata" = none ∨
          ∃ v, lookup d "metadata" = some v ∧ v.isMap = false)) ∧
      (∀ e, (resetMetadataAndStatus d).ret = Except.error e ↔
        GetMap (some d) "metadata" = Except.error e) ∧
      ((resetMetadataAndStatus d).ret = Except.error (errKeyNotFound "metadata") ↔
        lookup d "metadata" = none) ∧
      ((resetMetadataAndStatus d).ret = Except.error (errPathNotMap "metadata") ↔
        ∃ v, lookup d "metadata" = some v ∧ v.isMap = false) ∧
      ((resetMetadataAndStatus d).ret = Except.ok (resetMetadataAndStatus d).obj ↔
        ∃ md, lookup d "metadata" = some (Value.map md)) := by
  have hdiff : errKeyNotFound "metadata" ≠ errPathNotMap "metadata" := by decide
  cases hl : lookup d "metadata" with
  | none =>
    have hn : ∀ md, lookup d "metadata" ≠ some (Value.map md) := by simp [hl]
    have hg : GetMap (some d) "metadata" = Except.error (errKeyNotFound "metadata") := by
      rw [GetMap_metadata, hl]
    rw [(reset_of_not_map d hn).1]
    simp only [hg]
    refine ⟨?_, ?_, ?_, ?_, ?_⟩
    · simp
    · intro e; trivial
    · simp
    · simp [hdiff]
    · simp
  | some v =>
    by_cases hv : ∃ md, v = Value.map md
    · obtain ⟨md, rfl⟩ := hv
      have hg : GetMap (some d) "metadata" = Except.ok md := by
        rw [GetMap_metadata, hl]
      rw [reset_of_map d md hl]
      simp only [hg]
      refine ⟨?_, ?_, ?_, ?_, ?_⟩
      · simp [Value.isMap]
      · intro e; simp
      · simp
      · simp [Value.isMap]
      · simp
    · have hn : ∀ md, lookup d "metadata" ≠ some (Value.map md) := by
        intro md e
        rw [hl] at e
        exact hv ⟨md, Option.some.inj e⟩
      have hnm : v.isMap = false := by
        cases v with
        | map md => exact absurd ⟨md, rfl⟩ hv
        | _ => rfl
      have hg : GetMap (some d) "metadata" = Except.error (errPathNotMap "metadata") := by
        rw [GetMap_metadata, hl]
        cases v with
        | map md => exact absurd ⟨md, rfl⟩ hv
        | _ => rfl
      rw [(reset_of_not_map d hn).1]
      simp only [hg]
      refine ⟨?_, ?_, ?_, ?_, ?_⟩
      · simp [hnm]
      · intro e; trivial
      · simp [Ne.symm hdiff]
      · simp [hnm]
      · simp
        intro md e
        exact hv ⟨md, e⟩

/-- C9 (not found): on a non-nil root `GetValue` fails with the key-not-found
error naming `k` exactly when `k` is a part of the path, the parts before it
lead through nested maps to a map, and that map does not bind `k`; so the
error is reported for an absent key at any level and never when every part is
bound in the map reached. -/
theorem C9_not_found (root : Obj) (path k : String) :
    GetValue (some root) path = Except.error (errKeyNotFound k) ↔
      ∃ pre post mk, strings_Split path = pre ++ k :: post ∧ Reaches root pre mk ∧
        lookup mk k = none := by
  rw [GetValue_eq_walk]
  exact walk_notFound_iff _ (strings_Split_ne_nil path) root k

/-- C10 (intermediate type mismatch): when the parts up to `sk` of the path
resolve to a value that is not a map and further parts remain, `GetValue`
fails with the type-mismatch error naming `sk`, whatever the remaining parts
are, and never with a key-not-found error. -/
theorem C10_intermediate_type_mismatch (root mk : Obj) (path sk : String)
    (pre post : List String) (v : Value)
    (hsplit : strings_Split path = pre ++ sk :: post) (hpost : post ≠ [])
    (hr : Reaches root pre mk) (hv : lookup mk sk = some v) (hnm : v.isMap = false) :
    GetValue (some root) path = Except.error (errKeyNotMap sk) ∧
      ∀ k, GetValue (some root) path ≠ Except.error (errKeyNotFound k) := by
  have h : GetValue (some root) path = Except.error (errKeyNotMap sk) := by
    rw [GetValue_eq_walk, hsplit]
    exact walk_notMap root mk pre post sk v hpost hr hv hnm
  refine ⟨h, ?_⟩
  intro k hk
  rw [h] at hk
  injection hk with hk
  exact errKeyNotFound_ne_errKeyNotMap k sk hk.symm

/-! ## The claims at concrete documents -/

/-- C1 at the backup of the scenario: of its two secrets the loop keeps the one
that is not a default token. -/
theorem C1_filter_default_tokens_witness :
    lookup scenarioBackup "secrets" =
        some (Value.list [Value.map [("name", Value.str "default-token-abc")],
          Value.map [("name", Value.str "sa-token-xyz")]]) ∧
      filterBackup scenarioBackup =
        Outcome.done ([Value.map [("name", Value.str "sa-token-xyz")]],
          assign scenarioBackup "secrets"
            (Value.list [Value.map [("name", Value.str "sa-token-xyz")]])) :=
  ⟨rfl,
    (C1_filter_default_tokens scenarioBackup
      [Value.map [("name", Value.str "default-token-abc")],
        Value.map [("name", Value.str "sa-token-xyz")]] rfl
      (by
        intro e he
        simp only [List.mem_cons, List.mem_singleton, List.not_mem_nil, or_false] at he
        rcases he with rfl | rfl <;> rfl)).1⟩

/-- C2 at the backup of the scenario: `metadata` keeps `name` only and `status`
is gone. -/
theorem C2_metadata_whitelist_witness :
    lookup scenarioBackup "metadata" = some (Value.map [("name", Value.str "sa")]) ∧
      ∃ d' md', (resetMetadataAndStatus scenarioBackup).ret = Except.ok d' ∧
        (resetMetadataAndStatus scenarioBackup).obj = d' ∧
        lookup d' "metadata" = some (Value.map md') ∧
        (∀ k ∈ keys md', k = "name" ∨ k = "namespace" ∨ k = "labels" ∨ k = "annotations") ∧
        "status" ∉ keys d' :=
  ⟨rfl, C2_metadata_whitelist scenarioBackup [("name", Value.str "sa")] rfl⟩

/-- C4 at in-cluster secrets `[a]` and backup secrets `[default-token-1, b]`:
the desired secrets are `[a, b]` and the pull secrets are the backup's. -/
theorem C4_merge_correctness_witness :
    ∃ r d, processServiceAccounts mergeIncluster mergeBackup = Outcome.done r ∧
      r.incluster = some (resetMetadataAndStatus mergeIncluster).obj ∧
      r.backup = assign (resetMetadataAndStatus mergeBackup).obj "secrets"
        (Value.list ((secretsList mergeBackup).filter (fun e => !isDefaultToken e))) ∧
      r.secrets = [Value.map [("name", Value.str "b")]] ∧
      r.areEqual = false ∧
      r.desired = some d ∧
      lookup d "secrets" =
        some (Value.list ([Value.map [("name", Value.str "a")]] ++ r.secrets)) ∧
      lookup d "imagePullSecrets" = some (index r.backup "imagePullSecrets") ∧
      (∀ Y, lookup mergeBackup "imagePullSecrets" = some Y →
        lookup d "imagePullSecrets" = some Y) :=
  C4_merge_correctness mergeIncluster mergeBackup
    [("name", Value.str "sa")] [("name", Value.str "sa")] rfl rfl
    (by
      intro e he
      have he2 : e ∈ [Value.map [("name", Value.str "default-token-1")],
          Value.map [("name", Value.str "b")]] := he
      simp only [List.mem_cons, List.mem_singleton, List.not_mem_nil, or_false] at he2
      rcases he2 with rfl | rfl <;> rfl)
    rfl
    (List.cons_ne_nil (Value.map [("name", Value.str "b")]) [])

/-- C5 at the backup of the scenario: normalizing its normal form changes
nothing. -/
theorem C5_normalize_idempotent_witness :
    (resetMetadataAndStatus scenarioBackup).ret =
        Except.ok [("metadata", Value.map [("name", Value.str "sa")]),
          ("secrets", Value.list [Value.map [("name", Value.str "default-token-abc")],
            Value.map [("name", Value.str "sa-token-xyz")]])] ∧
      (resetMetadataAndStatus
          [("metadata", Value.map [("name", Value.str "sa")]),
            ("secrets", Value.list [Value.map [("name", Value.str "default-token-abc")],
              Value.map [("name", Value.str "sa-token-xyz")]])]).ret =
        Except.ok [("metadata", Value.map [("name", Value.str "sa")]),
          ("secrets", Value.list [Value.map [("name", Value.str "default-token-abc")],
            Value.map [("name", Value.str "sa-token-xyz")]])] :=
  ⟨rfl, (C5_normalize_idempotent scenarioBackup _ rfl).1⟩

theorem scenarioIncluster_WF : (Value.map scenarioIncluster).WF := by
  refine Value.WF.map _ (by decide) ?_
  intro kv hkv
  have h2 : kv ∈ [("metadata", Value.map [("name", Value.str "sa"), ("uid", Value.str "123")]),
      ("secrets", Value.list [Value.map [("name", Value.str "sa-token-xyz")]])] := hkv
  simp only [List.mem_cons, List.mem_singleton, List.not_mem_nil, or_false] at h2
  rcases h2 with rfl | rfl
  · refine Value.WF.map _ (by decide) ?_
    intro kv hkv
    simp only [List.mem_cons, List.mem_singleton, List.not_mem_nil, or_false] at hkv
    rcases hkv with rfl | rfl <;> exact Value.WF.str _
  · refine Value.WF.list _ ?_
    intro x hx
    simp only [List.mem_cons, List.mem_singleton, List.not_mem_nil, or_false] at hx
    subst hx
    refine Value.WF.map _ (by decide) ?_
    intro kv hkv
    simp only [List.mem_cons, List.mem_singleton, List.not_mem_nil, or_false] at hkv
    subst hkv
    exact Value.WF.str _

/-- C6 (amended) at the documents of the scenario: the normalized in-cluster
document is the filtered backup, so the run is a no-op. -/
theorem C6_noop_amended_witness :
    (resetMetadataAndStatus scenarioIncluster).obj =
        assign (resetMetadataAndStatus scenarioBackup).obj "secrets"
          (Value.list ((secretsList scenarioBackup).filter (fun e => !isDefaultToken e))) ∧
      ∃ r, processServiceAccounts scenarioIncluster scenarioBackup = Outcome.done r ∧
        r.incluster = some (resetMetadataAndStatus scenarioIncluster).obj ∧
        r.backup = (resetMetadataAndStatus scenarioIncluster).obj ∧
        r.areEqual = true ∧ r.desired = none :=
  ⟨rfl,
    C6_noop_amended scenarioIncluster scenarioBackup
      [("name", Value.str "sa"), ("uid", Value.str "123")] [("name", Value.str "sa")]
      rfl rfl scenarioIncluster_WF
      (by
        intro e he
        have he2 : e ∈ [Value.map [("name", Value.str "default-token-abc")],
            Value.map [("name", Value.str "sa-token-xyz")]] := he
        simp only [List.mem_cons, List.mem_singleton, List.not_mem_nil, or_false] at he2
        rcases he2 with rfl | rfl <;> rfl)
      rfl⟩

/-- C10 at the path `a.b.c.d` where `a.b` is a string: the error names `b`. -/
theorem C10_intermediate_type_mismatch_witness :
    strings_Split "a.b.c.d" = ["a"] ++ "b" :: ["c", "d"] ∧
      GetValue (some [("a", Value.map [("b", Value.str "x")])]) "a.b.c.d" =
        Except.error "value at key b is not a map[string]interface\x7b\x7d" ∧
      ∀ k, GetValue (some [("a", Value.map [("b", Value.str "x")])]) "a.b.c.d" ≠
        Except.error (errKeyNotFound k) :=
  ⟨by decide,
    C10_intermediate_type_mismatch [("a", Value.map [("b", Value.str "x")])]
      [("b", Value.str "x")] "a.b.c.d" "b" ["a"] ["c", "d"] (Value.str "x")
      (by decide) (List.cons_ne_nil _ _) ⟨[("b", Value.str "x")], rfl, rfl⟩ rfl rfl⟩

/-! ## The typed accessors and the nil root -/

theorem errRootNil_ne_errKeyNotFound (k : String) : errRootNil ≠ errKeyNotFound k := by
  intro h
  have h2 := congrArg String.data h
  simp only [errRootNil, errKeyNotFound, String.data_append] at h2
  have h3 := congrArg List.head? h2
  simp [List.append_assoc] at h3

theorem errRootNil_ne_errKeyNotMap (k : String) : errRootNil ≠ errKeyNotMap k := by
  intro h
  have h2 := congrArg String.data h
  simp only [errRootNil, errKeyNotMap, String.data_append] at h2
  have h3 := congrArg List.head? h2
  simp [List.append_assoc] at h3

theorem errRootNil_ne_errPathNotMap (p : String) : errRootNil ≠ errPathNotMap p := by
  intro h
  have h2 := congrArg String.data h
  simp only [errRootNil, errPathNotMap, String.data_append] at h2
  have h3 := congrArg List.head? h2
  simp [List.append_assoc] at h3

theorem errRootNil_ne_errPathNotSlice (p : String) : errRootNil ≠ errPathNotSlice p := by
  intro h
  have h2 := congrArg String.data h
  simp only [errRootNil, errPathNotSlice, String.data_append] at h2
  have h3 := congrArg List.head? h2
  simp [List.append_assoc] at h3

theorem errRootNil_ne_errPathNotString (p : String) : errRootNil ≠ errPathNotString p := by
  intro h
  have h2 := congrArg String.data h
  simp only [errRootNil, errPathNotString, String.data_append] at h2
  have h3 := congrArg List.head? h2
  simp [List.append_assoc] at h3

theorem GetValue_nil (path : String) : GetValue none path = Except.error errRootNil := rfl

theorem GetValue_empty (path : String) :
    GetValue (some []) path = Except.error (errKeyNotFound ((strings_Split path).headD "")) := by
  rw [GetValue_eq_walk]
  cases hp : strings_Split path with
  | nil => exact absurd hp (strings_Split_ne_nil path)
  | cons key rest => simp [walk, lookup]

/-- C11 (typed accessors): `GetMap`, `GetSlice` and `GetString` succeed exactly
when `GetValue` succeeds with a map, a list, a string, and then return that
value; they fail with the error of `GetValue` when it fails, and with the
type-mismatch error naming the whole path when it succeeds with a value of
another shape, null included. -/
theorem C11_typed_accessors (root : Option Obj) (path : String) :
    (∀ m, GetMap root path = Except.ok m ↔ GetValue root path = Except.ok (Value.map m)) ∧
      (∀ xs, GetSlice root path = Except.ok xs ↔
        GetValue root path = Except.ok (Value.list xs)) ∧
      (∀ str, GetString root path = Except.ok str ↔
        GetValue root path = Except.ok (Value.str str)) ∧
      (∀ e, GetMap root path = Except.error e ↔
        (GetValue root path = Except.error e ∨
          ∃ v, GetValue root path = Except.ok v ∧ v.isMap = false ∧ e = errPathNotMap path)) ∧
      (∀ e, GetSlice root path = Except.error e ↔
        (GetValue root path = Except.error e ∨
          ∃ v, GetValue root path = Except.ok v ∧ v.isList = false ∧
            e = errPathNotSlice path)) ∧
      (∀ e, GetString root path = Except.error e ↔
        (GetValue root path = Except.error e ∨
          ∃ v, GetValue root path = Except.ok v ∧ v.isStr = false ∧
            e = errPathNotString path)) ∧
      (GetValue root path = Except.ok Value.null ↔
        (GetMap root path = Except.error (errPathNotMap path) ∧
          GetSlice root path = Except.error (errPathNotSlice path) ∧
          GetString root path = Except.error (errPathNotString path) ∧
          GetValue root path = Except.ok Value.null)) := by
  unfold GetMap GetSlice GetString
  cases hg : GetValue root path with
  | error err =>
    refine ⟨?_, ?_, ?_, ?_, ?_, ?_, ?_⟩ <;> simp
  | ok v =>
    cases v <;>
      (refine ⟨?_, ?_, ?_, ?_, ?_, ?_, ?_⟩ <;>
        simp [Value.isMap, Value.isList, Value.isStr]) <;>
      (intro e; exact eq_comm)

/-- C12 (nil root): on the nil root `GetValue`, `GetMap`, `GetSlice` and
`GetString` fail with the `root is nil` error for every path, an error that is
none of the key-not-found and type-mismatch errors; on a present but empty root
they fail with key-not-found for the first part of the path instead. -/
theorem C12_nil_root (path : String) :
    GetValue none path = Except.error errRootNil ∧
      GetMap none path = Except.error errRootNil ∧
      GetSlice none path = Except.error errRootNil ∧
      GetString none path = Except.error errRootNil ∧
      (∀ k, errRootNil ≠ errKeyNotFound k ∧ errRootNil ≠ errKeyNotMap k ∧
        errRootNil ≠ errPathNotMap k ∧ errRootNil ≠ errPathNotSlice k ∧
        errRootNil ≠ errPathNotString k) ∧
      GetValue (some []) path =
        Except.error (errKeyNotFound ((strings_Split path).headD "")) ∧
      GetMap (some []) path =
        Except.error (errKeyNotFound ((strings_Split path).headD "")) ∧
      GetSlice (some []) path =
        Except.error (errKeyNotFound ((strings_Split path).headD "")) ∧
      GetString (some []) path =
        Except.error (errKeyNotFound ((strings_Split path).headD "")) ∧
      GetValue (some []) path ≠ Except.error errRootNil := by
  have he := GetValue_empty path
  refine ⟨rfl, rfl, rfl, rfl, ?_, he, ?_, ?_, ?_, ?_⟩
  · intro k
    exact ⟨errRootNil_ne_errKeyNotFound k, errRootNil_ne_errKeyNotMap k,
      errRootNil_ne_errPathNotMap k, errRootNil_ne_errPathNotSlice k,
      errRootNil_ne_errPathNotString k⟩
  · unfold GetMap; rw [he]
  · unfold GetSlice; rw [he]
  · unfold GetString; rw [he]
  · rw [he]
    intro h
    injection h with h
    exact errRootNil_ne_errKeyNotFound _ h.symm

/-! ## What the normalizer leaves alone -/

theorem lookup_filter_key (m : Obj) (p : String → Bool) (k : String) :
    lookup (m.filter (fun kv => p kv.1)) k = if p k = true then lookup m k else none := by
  induction m with
  | nil => simp [lookup]
  | cons kv rest ih =>
    obtain ⟨a, w⟩ := kv
    by_cases ha : p a = true
    · simp only [List.filter_cons, ha, if_true]
      by_cases e : a = k
      · subst e; simp [lookup, ha]
      · simp only [lookup, if_neg e, ih]
    · simp only [List.filter_cons, ha, if_false, Bool.false_eq_true]
      by_cases e : a = k
      · subst e; simp [lookup, ha, ih]
      · simp only [lookup, if_neg e, ih]

theorem mem_delete (m : Obj) (k : String) (kv : String × Value) (h : kv ∈ delete m k) :
    kv ∈ m := by
  rw [delete_eq_filter] at h
  exact List.mem_of_mem_filter h

theorem lookup_metadata_delete_status (d : Obj) :
    lookup (delete d "status") "metadata" = lookup d "metadata" := by
  rw [lookup_delete, if_neg (by decide)]

/-- C13 (normalizer frame): on a document whose `metadata` is a map the
normalizer leaves every top-level key other than `status` and `metadata` with
its value, keeps `metadata` as a map in which each of `name`, `namespace`,
`labels`, `annotations` is bound as before, and adds no binding at either
level. -/
theorem C13_normalizer_frame (d md : Obj) (h : lookup d "metadata" = some (Value.map md)) :
    ∃ md', lookup (resetMetadataAndStatus d).obj "metadata" = some (Value.map md') ∧
      (∀ k, k ≠ "status" → k ≠ "metadata" →
        lookup (resetMetadataAndStatus d).obj k = lookup d k) ∧
      (∀ k, k = "name" ∨ k = "namespace" ∨ k = "labels" ∨ k = "annotations" →
        lookup md' k = lookup md k) ∧
      (∀ kv ∈ md', kv ∈ md) ∧
      (∀ kv ∈ (resetMetadataAndStatus d).obj, kv ∈ d ∨ kv = ("metadata", Value.map md')) ∧
      (∀ k ∈ keys (resetMetadataAndStatus d).obj, k ∈ keys d) := by
  have hmem : "metadata" ∈ keys d := by
    by_contra hc
    rw [(lookup_eq_none_iff d "metadata").2 hc] at h
    cases h
  refine ⟨md.filter (fun kv => keptKey kv.1), ?_, ?_, ?_, ?_, ?_, ?_⟩
  · rw [reset_of_map d md h]
    simp only
    rw [lookup_delete, if_neg (by decide), lookup_assign, if_pos rfl]
  · intro k h1 h2
    exact lookup_reset_other d md h k h2 h1
  · intro k hk
    have hkept : keptKey k = true := by
      rcases hk with rfl | rfl | rfl | rfl <;> rfl
    rw [lookup_filter_key md keptKey k, if_pos hkept]
  · intro kv hkv
    exact List.mem_of_mem_filter hkv
  · intro kv hkv
    rw [reset_of_map d md h] at hkv
    exact mem_assign d _ _ kv (mem_delete _ _ kv hkv)
  · intro k hk
    rw [reset_of_map d md h] at hk
    obtain ⟨kv, hkv, rfl⟩ := List.mem_map.1 hk
    have h2 : kv.1 ∈ keys (assign d "metadata"
        (Value.map (md.filter (fun kv => keptKey kv.1)))) :=
      List.mem_map_of_mem Prod.fst (mem_delete _ _ kv hkv)
    rw [keys_assign, if_pos hmem] at h2
    exact h2

/-- C14, as stated, fails: a document with a `status` and no `metadata` still has
its `status` key after the call, because the normalizer returns the accessor's
error before it reaches the removal. -/
theorem C14_status_counterexample :
    ¬ (∀ d : Obj, "status" ∉ keys (resetMetadataAndStatus d).obj) := by
  intro h
  exact h statusOnlyDoc (by decide)

/-- C14 (status removal, amended): on every document whose `metadata` is a map,
with or without a `status` key, the normalizer succeeds and leaves no top-level
`status` key; whether the call fails does not depend on `status` being there;
and when `metadata` is absent or not a map the call fails and leaves the
document as it was. -/
theorem C14_status_amended (d : Obj) :
    ((∃ md, lookup d "metadata" = some (Value.map md)) →
        (resetMetadataAndStatus d).ret = Except.ok (resetMetadataAndStatus d).obj ∧
        "status" ∉ keys (resetMetadataAndStatus d).obj) ∧
      (∀ e, (resetMetadataAndStatus d).ret = Except.error e ↔
        (resetMetadataAndStatus (delete d "status")).ret = Except.error e) ∧
      ((¬ ∃ md, lookup d "metadata" = some (Value.map md)) →
        (∃ e, (resetMetadataAndStatus d).ret = Except.error e) ∧
        (resetMetadataAndStatus d).obj = d) := by
  refine ⟨?_, ?_, ?_⟩
  · rintro ⟨md, hmd⟩
    refine ⟨by rw [reset_of_map d md hmd], ?_⟩
    rw [reset_of_map d md hmd, ← lookup_eq_none_iff, lookup_delete, if_pos rfl]
  · intro e
    by_cases hm : ∃ md, lookup d "metadata" = some (Value.map md)
    · obtain ⟨md, hmd⟩ := hm
      have hmd2 : lookup (delete d "status") "metadata" = some (Value.map md) := by
        rw [lookup_metadata_delete_status, hmd]
      rw [reset_of_map d md hmd, reset_of_map _ md hmd2]
      simp
    · have hn : ∀ md, lookup d "metadata" ≠ some (Value.map md) := fun md e => hm ⟨md, e⟩
      have hn2 : ∀ md, lookup (delete d "status") "metadata" ≠ some (Value.map md) := by
        intro md
        rw [lookup_metadata_delete_status]
        exact hn md
      rw [(reset_of_not_map d hn).1, (reset_of_not_map _ hn2).1]
      simp only
      rw [GetMap_metadata, GetMap_metadata, lookup_metadata_delete_status]
  · intro hm
    have hn : ∀ md, lookup d "metadata" ≠ some (Value.map md) := fun md e => hm ⟨md, e⟩
    obtain ⟨hr, e, he⟩ := reset_of_not_map d hn
    rw [hr]
    exact ⟨⟨e, he⟩, rfl⟩

/-! ## The desired document -/

theorem resetPtr_some (d nb : Obj) (h : resetPtr d = some nb) :
    ∃ md, lookup d "metadata" = some (Value.map md) ∧ nb = (resetMetadataAndStatus d).obj ∧
      (resetMetadataAndStatus d).ret = Except.ok nb := by
  by_cases hm : ∃ md, lookup d "metadata" = some (Value.map md)
  · obtain ⟨md, hmd⟩ := hm
    rw [resetPtr_of_map d md hmd] at h
    injection h with h
    refine ⟨md, hmd, h.symm, ?_⟩
    rw [← h, reset_of_map d md hmd]
  · have hn : ∀ md, lookup d "metadata" ≠ some (Value.map md) := fun md e => hm ⟨md, e⟩
    obtain ⟨hr, e, he⟩ := reset_of_not_map d hn
    unfold resetPtr at h
    rw [hr] at h
    simp only [he] at h
    cases h

theorem resetPtr_none (d : Obj) (h : ∀ md, lookup d "metadata" ≠ some (Value.map md)) :
    resetPtr d = none := by
  obtain ⟨hr, e, he⟩ := reset_of_not_map d h
  unfold resetPtr
  rw [hr]
  simp only [he]

theorem filterBackup_done (nb bk : Obj) (F : List Value)
    (h : filterBackup nb = Outcome.done (F, bk)) : bk = assign nb "secrets" (Value.list F) := by
  unfold filterBackup at h
  cases hl : filterLoop (secretsOf nb).length (secretsOf nb) with
  | panic msg => simp [hl] at h
  | done F' =>
    simp only [hl, Outcome.done.injEq, Prod.mk.injEq] at h
    rw [← h.2, h.1]

theorem buildDesired_other (inc bk : Obj) (F : List Value) (k : String)
    (h1 : k ≠ "imagePullSecrets") (h2 : k ≠ "secrets") :
    lookup (buildDesired inc bk F) k = lookup inc k := by
  unfold buildDesired
  by_cases hF : F.length ≠ 0
  · simp only [if_pos hF]
    rw [lookup_assign, if_neg (Ne.symm h2), lookup_assign, if_neg (Ne.symm h1)]
  · simp only [if_neg hF]
    rw [lookup_assign, if_neg (Ne.symm h1)]

theorem buildDesired_secrets_nil (inc bk : Obj) :
    lookup (buildDesired inc bk []) "secrets" = lookup inc "secrets" := by
  unfold buildDesired
  simp only [List.length_nil, ne_eq, not_true_eq_false, if_false]
  rw [lookup_assign, if_neg (by decide)]

theorem keys_buildDesired (inc bk : Obj) (F : List Value) :
    ∀ k ∈ keys (buildDesired inc bk F),
      k ∈ keys inc ∨ k = "imagePullSecrets" ∨ k = "secrets" := by
  have h1 : ∀ (m : Obj) (key : String) (v : Value), ∀ k ∈ keys (assign m key v),
      k ∈ keys m ∨ k = key := by
    intro m key v k hk
    rw [keys_assign] at hk
    split at hk
    · exact Or.inl hk
    · rcases List.mem_append.1 hk with h | h
      · exact Or.inl h
      · exact Or.inr (List.mem_singleton.1 h)
  intro k hk
  unfold buildDesired at hk
  by_cases hF : F.length ≠ 0
  · simp only [if_pos hF] at hk
    rcases h1 _ _ _ k hk with h | h
    · rcases h1 _ _ _ k h with h | h
      · exact Or.inl h
      · exact Or.inr (Or.inl h)
    · exact Or.inr (Or.inr h)
  · simp only [if_neg hF] at hk
    rcases h1 _ _ _ k hk with h | h
    · exact Or.inl h
    · exact Or.inr (Or.inl h)

/-- The documents behind a run that ends normally. -/
theorem processServiceAccounts_backup (I B : Obj) (r : Report)
    (h : processServiceAccounts I B = Outcome.done r) :
    ∃ mb, lookup B "metadata" = some (Value.map mb) ∧
      r.backup = assign (resetMetadataAndStatus B).obj "secrets" (Value.list r.secrets) := by
  obtain ⟨nb, hb, hf, _, _, _⟩ := processServiceAccounts_done I B r h
  obtain ⟨mb, hmb, hnb, _⟩ := resetPtr_some B nb hb
  exact ⟨mb, hmb, by rw [filterBackup_done nb r.backup r.secrets hf, hnb]⟩

theorem processServiceAccounts_desired (I B : Obj) (r : Report) (d : Obj)
    (h : processServiceAccounts I B = Outcome.done r) (hd : r.desired = some d) :
    ∃ inc, (resetMetadataAndStatus I).ret = Except.ok inc ∧ r.incluster = some inc ∧
      r.areEqual = false ∧ d = buildDesired inc r.backup r.secrets := by
  obtain ⟨nb, _, _, hinc, _, hcase⟩ := processServiceAccounts_done I B r h
  rcases hcase with ⟨_, hnone⟩ | ⟨hf, inc, hi, hdes⟩
  · rw [hnone] at hd; cases hd
  · obtain ⟨_, _, _, hret⟩ := resetPtr_some I inc hi
    rw [hdes] at hd
    injection hd with hd
    exact ⟨inc, hret, by rw [hinc, hi], hf, hd.symm⟩

/-- C15, as stated, fails: with a backup that has no `imagePullSecrets` key the
desired document does have the key, bound to null, because the assignment
stores the nil value the map index gives for an absent key. -/
theorem C15_imagePullSecrets_counterexample :
    ¬ (∀ (I B : Obj) (r : Report) (d : Obj), processServiceAccounts I B = Outcome.done r →
        r.desired = some d → lookup B "imagePullSecrets" = none →
        "imagePullSecrets" ∉ keys d) := by
  intro h
  have h0 : processServiceAccounts mergeIncluster bareDoc =
      Outcome.done
        { incluster := some mergeIncluster,
          backup := [("metadata", Value.map []), ("secrets", Value.list [])],
          secrets := [], areEqual := false,
          desired := some
            [("metadata", Value.map [("name", Value.str "sa")]),
              ("secrets", Value.list [Value.map [("name", Value.str "a")]]),
              ("imagePullSecrets", Value.null)] } := rfl
  exact h mergeIncluster bareDoc _ _ h0 rfl rfl (by decide)

/-- C15 (imagePullSecrets, amended): whenever a desired document is produced it
has an `imagePullSecrets` key; the key is bound to the backup's value when the
backup has the key, and to null when the backup has none, whatever the
in-cluster document had there. -/
theorem C15_imagePullSecrets_amended (I B : Obj) (r : Report) (d : Obj)
    (h : processServiceAccounts I B = Outcome.done r) (hd : r.desired = some d) :
    "imagePullSecrets" ∈ keys d ∧
      (∀ Y, lookup B "imagePullSecrets" = some Y → lookup d "imagePullSecrets" = some Y) ∧
      (lookup B "imagePullSecrets" = none →
        lookup d "imagePullSecrets" = some Value.null) := by
  obtain ⟨inc, _, _, _, hdes⟩ := processServiceAccounts_desired I B r d h hd
  obtain ⟨mb, hmb, hbk⟩ := processServiceAccounts_backup I B r h
  have hl : lookup r.backup "imagePullSecrets" = lookup B "imagePullSecrets" := by
    rw [hbk, lookup_assign, if_neg (by decide),
      lookup_reset_other B mb hmb "imagePullSecrets" (by decide) (by decide)]
  have hips : lookup d "imagePullSecrets" = some (index r.backup "imagePullSecrets") := by
    rw [hdes]; exact buildDesired_imagePullSecrets _ _ _
  refine ⟨?_, ?_, ?_⟩
  · by_contra hc
    rw [(lookup_eq_none_iff d "imagePullSecrets").2 hc] at hips
    cases hips
  · intro Y hY
    rw [hips]; unfold index; rw [hl, hY]
  · intro hn
    rw [hips]; unfold index; rw [hl, hn]

/-- C18 (merge frame): whenever a desired document is produced, the in-cluster
document is still the normalizer's result, and the desired document agrees with
it on every key other than `imagePullSecrets` and `secrets`, has the same
`secrets` binding (or none) when the filtered list is empty, has the in-cluster
secrets followed by the filtered list otherwise, and has no further keys. -/
theorem C18_merge_frame (I B : Obj) (r : Report) (d : Obj)
    (h : processServiceAccounts I B = Outcome.done r) (hd : r.desired = some d) :
    ∃ inc, (resetMetadataAndStatus I).ret = Except.ok inc ∧ r.incluster = some inc ∧
      (∀ k, k ≠ "imagePullSecrets" → k ≠ "secrets" → lookup d k = lookup inc k) ∧
      (r.secrets = [] → lookup d "secrets" = lookup inc "secrets") ∧
      (r.secrets ≠ [] →
        lookup d "secrets" = some (Value.list (secretsList inc ++ r.secrets))) ∧
      (∀ k ∈ keys d, k ∈ keys inc ∨ k = "imagePullSecrets" ∨ k = "secrets") := by
  obtain ⟨inc, hret, hinc, _, hdes⟩ := processServiceAccounts_desired I B r d h hd
  refine ⟨inc, hret, hinc, ?_, ?_, ?_, ?_⟩
  · intro k h1 h2
    rw [hdes]; exact buildDesired_other _ _ _ k h1 h2
  · intro hF
    rw [hdes, hF]; exact buildDesired_secrets_nil _ _
  · intro hF
    rw [hdes]; exact buildDesired_secrets _ _ _ hF
  · rw [hdes]; exact keys_buildDesired _ _ _

/-! ## Entries without a usable name, and documents without `metadata` -/

theorem isDefaultToken_of_not_secretRef (e : Value) (h : isSecretRef e = false) :
    isDefaultToken e = false := by
  cases e with
  | map m =>
    cases hl : lookup m "name" with
    | none => simp only [isDefaultToken, hl]
    | some v =>
      cases v with
      | str name => simp [isSecretRef, hl] at h
      | _ => simp only [isDefaultToken, hl]
  | _ => rfl

theorem isDefaultToken_of_no_name (m : Obj) (h : ∀ name, lookup m "name" ≠ some (Value.str name)) :
    isDefaultToken (Value.map m) = false := by
  cases hl : lookup m "name" with
  | none => simp only [isDefaultToken, hl]
  | some v =>
    cases v with
    | str name => exact absurd hl (h name)
    | _ => simp only [isDefaultToken, hl]

/-- Without a map `metadata` in one of the two documents every run ends in a
panic: the nil pointer the normalizer returned is used at line 134 or 155. -/
theorem processServiceAccounts_panics (I B : Obj)
    (h : (∀ md, lookup I "metadata" ≠ some (Value.map md)) ∨
      (∀ md, lookup B "metadata" ≠ some (Value.map md))) :
    ∃ msg, processServiceAccounts I B = Outcome.panic msg := by
  unfold processServiceAccounts
  cases hb : resetPtr B with
  | none => exact ⟨_, rfl⟩
  | some nb =>
    obtain ⟨mb, hmb, _, _⟩ := resetPtr_some B nb hb
    have hI : ∀ md, lookup I "metadata" ≠ some (Value.map md) := by
      rcases h with h | h
      · exact h
      · exact absurd hmb (h mb)
    simp only [resetPtr_none I hI]
    cases hf : filterBackup nb with
    | panic msg => exact ⟨_, rfl⟩
    | done res =>
      obtain ⟨F, bk⟩ := res
      exact ⟨_, rfl⟩

/-- C16, as stated, fails: a backup whose only secret is a map without `name`
has a malformed entry, yet the filtering step ends normally and keeps the
entry, because the error of the `name` lookup is discarded. -/
theorem C16_malformed_counterexample :
    ¬ (∀ (backup : Obj) (S : List Value), lookup backup "secrets" = some (Value.list S) →
        ((∀ res, filterBackup backup ≠ Outcome.done res) ↔
          ∃ e ∈ S, isSecretRef e = false)) := by
  intro h
  have h1 := (h namelessBackup [Value.map [("kind", Value.str "Secret")]] rfl).2
    ⟨Value.map [("kind", Value.str "Secret")], List.mem_singleton_self _, rfl⟩
  exact h1
    ([Value.map [("kind", Value.str "Secret")]],
      [("metadata", Value.map []),
        ("secrets", Value.list [Value.map [("kind", Value.str "Secret")]])]) rfl

/-- C16 (malformed entries, amended): on a backup secrets list whose entries are
maps the filtering step never fails; the error of a failed `name` lookup is
discarded, so an entry without a string `name` is kept in the filtered list,
and a list of well-formed entries is filtered as usual. -/
theorem C16_malformed_amended (backup : Obj) (S : List Value)
    (hS : lookup backup "secrets" = some (Value.list S))
    (hmaps : ∀ e ∈ S, e.isMap = true) :
    filterBackup backup =
        Outcome.done (S.filter (fun e => !isDefaultToken e),
          assign backup "secrets" (Value.list (S.filter (fun e => !isDefaultToken e)))) ∧
      (∀ e ∈ S, isSecretRef e = false → e ∈ S.filter (fun e => !isDefaultToken e)) := by
  have hsl : secretsList backup = S := by unfold secretsList; rw [hS]
  refine ⟨?_, ?_⟩
  · have := filterBackup_of_maps backup (by rw [hsl]; exact hmaps)
    rw [hsl] at this
    exact this
  · intro e he hn
    exact List.mem_filter.2 ⟨he, by rw [isDefaultToken_of_not_secretRef e hn]; rfl⟩

/-- C19 (lenient name lookup): in a backup secrets list of maps, an entry with no
`name` key or a `name` that is not a string is kept, at its place between the
filtered entries before it and the filtered entries after it. -/
theorem C19_lenient_name_lookup (backup m : Obj) (pre post : List Value)
    (hS : lookup backup "secrets" = some (Value.list (pre ++ Value.map m :: post)))
    (hmaps : ∀ e ∈ pre ++ post, e.isMap = true)
    (hname : ∀ name, lookup m "name" ≠ some (Value.str name)) :
    filterBackup backup =
      Outcome.done
        (pre.filter (fun e => !isDefaultToken e) ++
            Value.map m :: post.filter (fun e => !isDefaultToken e),
          assign backup "secrets"
            (Value.list (pre.filter (fun e => !isDefaultToken e) ++
              Value.map m :: post.filter (fun e => !isDefaultToken e)))) := by
  have hsl : secretsList backup = pre ++ Value.map m :: post := by
    unfold secretsList; rw [hS]
  have hall : ∀ e ∈ secretsList backup, e.isMap = true := by
    rw [hsl]
    intro e he
    rcases List.mem_append.1 he with h | h
    · exact hmaps e (List.mem_append_left _ h)
    · rcases List.mem_cons.1 h with h | h
      · rw [h]; rfl
      · exact hmaps e (List.mem_append_right _ h)
  have hkeep : keepSecrets (pre ++ Value.map m :: post) =
      pre.filter (fun e => !isDefaultToken e) ++
        Value.map m :: post.filter (fun e => !isDefaultToken e) := by
    unfold keepSecrets
    rw [List.filter_append, List.filter_cons]
    simp [isDefaultToken_of_no_name m hname]
  rw [filterBackup_of_maps backup hall, hsl, hkeep]

/-- C20 at two failing inputs: when the in-cluster document, or the backup, has
no `metadata`, the run does not continue to a result but panics on the nil
pointer the normalizer returned. -/
theorem C20_metadata_error_panics :
    processServiceAccounts noMetadataDoc bareDoc =
        Outcome.panic "invalid memory address or nil pointer dereference" ∧
      processServiceAccounts bareDoc noMetadataDoc =
        Outcome.panic "invalid memory address or nil pointer dereference" :=
  ⟨rfl, rfl⟩

/-! ## Further claims at concrete documents -/

/-- C13 at the in-cluster document of the scenario. -/
theorem C13_normalizer_frame_witness :
    lookup scenarioIncluster "metadata" =
        some (Value.map [("name", Value.str "sa"), ("uid", Value.str "123")]) ∧
      ∃ md', lookup (resetMetadataAndStatus scenarioIncluster).obj "metadata" =
          some (Value.map md') ∧
        (∀ k, k ≠ "status" → k ≠ "metadata" →
          lookup (resetMetadataAndStatus scenarioIncluster).obj k =
            lookup scenarioIncluster k) ∧
        (∀ k, k = "name" ∨ k = "namespace" ∨ k = "labels" ∨ k = "annotations" →
          lookup md' k = lookup [("name", Value.str "sa"), ("uid", Value.str "123")] k) ∧
        (∀ kv ∈ md', kv ∈ [("name", Value.str "sa"), ("uid", Value.str "123")]) ∧
        (∀ kv ∈ (resetMetadataAndStatus scenarioIncluster).obj,
          kv ∈ scenarioIncluster ∨ kv = ("metadata", Value.map md')) ∧
        (∀ k ∈ keys (resetMetadataAndStatus scenarioIncluster).obj,
          k ∈ keys scenarioIncluster) :=
  ⟨rfl, C13_normalizer_frame scenarioIncluster
    [("name", Value.str "sa"), ("uid", Value.str "123")] rfl⟩

/-- C14 (amended) at a document with a map `metadata` and a `status`. -/
theorem C14_status_amended_witness :
    (∃ md, lookup scenarioBackup "metadata" = some (Value.map md)) ∧
      "status" ∈ keys scenarioBackup ∧
      "status" ∉ keys (resetMetadataAndStatus scenarioBackup).obj :=
  ⟨⟨_, rfl⟩, by decide,
    ((C14_status_amended scenarioBackup).1 ⟨_, rfl⟩).2⟩

/-- C15 (amended) at a backup without `imagePullSecrets`: the desired document
binds the key to null although the in-cluster document had a value. -/
theorem C15_imagePullSecrets_amended_witness :
    lookup bareDoc "imagePullSecrets" = none ∧
      lookup mergeIncluster "imagePullSecrets" =
        some (Value.list [Value.map [("name", Value.str "x")]]) ∧
      lookup
          [("metadata", Value.map [("name", Value.str "sa")]),
            ("secrets", Value.list [Value.map [("name", Value.str "a")]]),
            ("imagePullSecrets", Value.null)]
          "imagePullSecrets" = some Value.null :=
  ⟨rfl, rfl,
    (C15_imagePullSecrets_amended mergeIncluster bareDoc
      { incluster := some mergeIncluster,
        backup := [("metadata", Value.map []), ("secrets", Value.list [])],
        secrets := [], areEqual := false,
        desired := some
          [("metadata", Value.map [("name", Value.str "sa")]),
            ("secrets", Value.list [Value.map [("name", Value.str "a")]]),
            ("imagePullSecrets", Value.null)] }
      _ rfl rfl).2.2 rfl⟩

/-- C16 (amended) at the backup whose only secret has no `name`. -/
theorem C16_malformed_amended_witness :
    lookup namelessBackup "secrets" =
        some (Value.list [Value.map [("kind", Value.str "Secret")]]) ∧
      filterBackup namelessBackup =
        Outcome.done ([Value.map [("kind", Value.str "Secret")]],
          assign namelessBackup "secrets"
            (Value.list [Value.map [("kind", Value.str "Secret")]])) :=
  ⟨rfl,
    (C16_malformed_amended namelessBackup [Value.map [("kind", Value.str "Secret")]] rfl
      (by
        intro e he
        rw [List.mem_singleton.1 he]
        rfl)).1⟩

/-- C18 at in-cluster secrets `[a]` and backup secrets `[default-token-1, b]`. -/
theorem C18_merge_frame_witness :
    processServiceAccounts mergeIncluster mergeBackup =
        Outcome.done
          { incluster := some mergeIncluster,
            backup :=
              [("metadata", Value.map [("name", Value.str "sa")]),
                ("secrets", Value.list [Value.map [("name", Value.str "b")]]),
                ("imagePullSecrets", Value.list [Value.map [("name", Value.str "y")]])],
            secrets := [Value.map [("name", Value.str "b")]], areEqual := false,
            desired := some
              [("metadata", Value.map [("name", Value.str "sa")]),
                ("secrets", Value.list [Value.map [("name", Value.str "a")],
                  Value.map [("name", Value.str "b")]]),
                ("imagePullSecrets", Value.list [Value.map [("name", Value.str "y")]])] } ∧
      ∃ inc, (resetMetadataAndStatus mergeIncluster).ret = Except.ok inc ∧
        some mergeIncluster = some inc ∧
        (∀ k, k ≠ "imagePullSecrets" → k ≠ "secrets" →
          lookup
            [("metadata", Value.map [("name", Value.str "sa")]),
              ("secrets", Value.list [Value.map [("name", Value.str "a")],
                Value.map [("name", Value.str "b")]]),
              ("imagePullSecrets", Value.list [Value.map [("name", Value.str "y")]])] k =
            lookup inc k) :=
  ⟨rfl,
    (C18_merge_frame mergeIncluster mergeBackup
      { incluster := some mergeIncluster,
        backup :=
          [("metadata", Value.map [("name", Value.str "sa")]),
            ("secrets", Value.list [Value.map [("name", Value.str "b")]]),
            ("imagePullSecrets", Value.list [Value.map [("name", Value.str "y")]])],
        secrets := [Value.map [("name", Value.str "b")]], areEqual := false,
        desired := some
          [("metadata", Value.map [("name", Value.str "sa")]),
            ("secrets", Value.list [Value.map [("name", Value.str "a")],
              Value.map [("name", Value.str "b")]]),
            ("imagePullSecrets", Value.list [Value.map [("name", Value.str "y")]])] }
      _ rfl rfl).imp (fun _ hx => ⟨hx.1, hx.2.1, hx.2.2.1⟩)⟩

/-- C19 at a backup with a secret whose `name` is a number, between a default
token and a named secret: the default token goes, the other two stay. -/
theorem C19_lenient_name_lookup_witness :
    lookup lenientBackup "secrets" =
        some (Value.list ([Value.map [("name", Value.str "default-token-q")]] ++
          Value.map [("name", Value.num 7)] :: [Value.map [("name", Value.str "kept")]])) ∧
      filterBackup lenientBackup =
        Outcome.done
          ([Value.map [("name", Value.num 7)], Value.map [("name", Value.str "kept")]],
            assign lenientBackup "secrets"
              (Value.list [Value.map [("name", Value.num 7)],
                Value.map [("name", Value.str "kept")]])) :=
  ⟨rfl,
    C19_lenient_name_lookup lenientBackup [("name", Value.num 7)]
      [Value.map [("name", Value.str "default-token-q")]]
      [Value.map [("name", Value.str "kept")]] rfl
      (by
        intro e he
        have he2 : e ∈ [Value.map [("name", Value.str "default-token-q")],
            Value.map [("name", Value.str "kept")]] := he
        simp only [List.mem_cons, List.mem_singleton, List.not_mem_nil, or_false] at he2
        rcases he2 with rfl | rfl <;> rfl)
      (by
        intro name hn
        have h2 : some (Value.num 7) = some (Value.str name) := hn
        cases h2)⟩

/-- C11 at a document with two levels: a string is read by `GetString`, and a
null under `metadata.labels` is a type mismatch naming the whole path. -/
theorem C11_typed_accessors_witness :
    GetString (some accessorDoc) "metadata.name" = Except.ok "sa" ∧
      GetString (some accessorDoc) "metadata.labels" =
        Except.error "value at path metadata.labels is not a string" ∧
      GetSlice (some accessorDoc) "metadata.labels" =
        Except.error (errPathNotSlice "metadata.labels") :=
  ⟨((C11_typed_accessors (some accessorDoc) "metadata.name").2.2.1 "sa").2 rfl,
    ((C11_typed_accessors (some accessorDoc) "metadata.labels").2.2.2.2.2.2.1 rfl).2.2.1,
    ((C11_typed_accessors (some accessorDoc) "metadata.labels").2.2.2.2.2.2.1 rfl).2.1⟩

end ConflictHandler
